import Mathlib

/-!
Shallow embedding of the dataflow graph module
(src/rapx/src/analysis/core/dataflow/graph.rs) of the RAPx repository.

Rust `Local` and edge indices are modelled as `Nat`; `IndexVec` as `List`
with push = append at the end; `Span` and `DefId` as `Nat`; `HashSet<Nat>`
as `Finset Nat`.  Code paths that panic in Rust (`todo!()`, `unwrap()` on
`None`, out-of-range `IndexVec` indexing guarded by explicit hypotheses)
are modelled with `Option`: `none` means the translation aborts.
The recursive depth-first search has no termination guarantee in the source
(no cycle detection), so it is modelled with an explicit fuel parameter;
`none` means the fuel ran out.
-/


/-- `NodeOp` from graph.rs (operation tag of a node). -/
inductive NodeOp where
  | Nop
  | Err
  | Const (s : String)
  | Use
  | Repeat
  | Ref
  | ThreadLocalRef
  | AddressOf
  | Len
  | Cast
  | BinaryOp
  | CheckedBinaryOp
  | NullaryOp
  | UnaryOp
  | Discriminant
  | Aggregate (k : Nat) (def_id : Nat)
  | ShallowInitBox
  | CopyForDeref
  | Call (def_id : Nat)
  | CallOperand
  deriving Repr, DecidableEq

/-- `EdgeOp` from graph.rs (operation tag of an edge). -/
inductive EdgeOp where
  | Nop
  | Move
  | Copy
  | Const
  | Immut
  | Mut
  | Deref
  | Field (s : String)
  | Downcast (s : String)
  | Index
  | ConstIndex
  | SubSlice
  deriving Repr, DecidableEq

/-- `GraphEdge` from graph.rs. -/
structure GraphEdge where
  src : Nat
  dst : Nat
  op : EdgeOp
  seq : Nat
  deriving Repr, DecidableEq

/-- `GraphNode` from graph.rs. -/
structure GraphNode where
  op : NodeOp
  span : Nat
  seq : Nat
  out_edges : List Nat
  in_edges : List Nat
  deriving Repr, DecidableEq

/-- `GraphNode::new()`: Nop tag, dummy span, seq 0, empty edge lists. -/
def GraphNode.new : GraphNode :=
  { op := NodeOp.Nop, span := 0, seq := 0, out_edges := [], in_edges := [] }

/-- Default edge used as the `getD` fallback (never reachable on valid indices). -/
def dEdge : GraphEdge := { src := 0, dst := 0, op := EdgeOp.Nop, seq := 0 }

/-- `Graph` from graph.rs. -/
structure Graph where
  def_id : Nat
  span : Nat
  argc : Nat
  nodes : List GraphNode
  edges : List GraphEdge
  n_locals : Nat
  deriving Repr, DecidableEq

/-- `Graph::new`: `n_locals` fresh nodes, no edges. -/
def Graph.new (def_id span argc n_locals : Nat) : Graph :=
  { def_id := def_id, span := span, argc := argc,
    nodes := List.replicate n_locals GraphNode.new, edges := [],
    n_locals := n_locals }

/-- In-place update of the `i`-th element of a list (no-op when out of range),
modelling `self.nodes[i].field = ...` style mutation. -/
def listModify (l : List α) (i : Nat) (f : α → α) : List α :=
  match l, i with
  | [], _ => []
  | a :: as, 0 => f a :: as
  | a :: as, n + 1 => a :: listModify as n f

/-- Convenience accessor: node at index `i` (`GraphNode::new` as fallback). -/
def Graph.node (g : Graph) (i : Nat) : GraphNode :=
  g.nodes.getD i GraphNode.new

/-- Convenience accessor: edge at index `e`. -/
def Graph.edge (g : Graph) (e : Nat) : GraphEdge :=
  g.edges.getD e dEdge

/-- `Graph::add_node_edge`: records an edge `src -> dst` stamped with the
current seq of `dst`, and appends the edge id to `dst.in_edges` and then to
`src.out_edges`.  Returns the updated graph and the new edge id. -/
def Graph.add_node_edge (g : Graph) (src dst : Nat) (op : EdgeOp) :
    Graph × Nat :=
  let seq := (g.node dst).seq
  let edge_idx := g.edges.length
  let edges := g.edges ++ [{ src := src, dst := dst, op := op, seq := seq }]
  let nodes := listModify g.nodes dst
    (fun n => { n with in_edges := n.in_edges ++ [edge_idx] })
  let nodes := listModify nodes src
    (fun n => { n with out_edges := n.out_edges ++ [edge_idx] })
  ({ g with nodes := nodes, edges := edges }, edge_idx)

/-- `Graph::add_const_edge`: pushes a fresh constant node tagged with the
literal's textual form, then an edge from it into `dst`; the edge id is
appended only to `dst.in_edges` (not to the constant node's `out_edges`). -/
def Graph.add_const_edge (g : Graph) (s : String) (dst : Nat) (op : EdgeOp) :
    Graph × Nat :=
  let seq := (g.node dst).seq
  let const_node := { GraphNode.new with op := NodeOp.Const s }
  let src := g.nodes.length
  let nodes := g.nodes ++ [const_node]
  let edge_idx := g.edges.length
  let edges := g.edges ++ [{ src := src, dst := dst, op := op, seq := seq }]
  let nodes := listModify nodes dst
    (fun n => { n with in_edges := n.in_edges ++ [edge_idx] })
  ({ g with nodes := nodes, edges := edges }, edge_idx)

/-- `PlaceElem` from rustc MIR, restricted to what graph.rs matches on;
`Unsupported` stands for the remaining variants hitting the `todo!()` arm. -/
inductive PlaceElem where
  | Deref
  | Field (idx : Nat)
  | Downcast (symbol : Option String)
  | Index (idx : Nat)
  | ConstantIndex
  | Subslice
  | Unsupported
  deriving Repr, DecidableEq

/-- MIR `Place`: a base local plus a projection chain. -/
structure Place where
  lcl : Nat
  projection : List PlaceElem
  deriving Repr, DecidableEq

/-- Textual form of a field index (the `format!` call in graph.rs). -/
def fieldStr (i : Nat) : String := toString i

/-- `parse_one_step` (the inner function of `Graph::parse_place`): pushes one
fresh marker node and the edge(s) of one projection step into it.  `none`
models the panicking arms (`todo!()` and `unwrap()` of a missing symbol). -/
def parse_one_step (g : Graph) (src : Nat) (el : PlaceElem) :
    Option (Graph × Nat) :=
  let dst := g.nodes.length
  let g1 : Graph := { g with nodes := g.nodes ++ [GraphNode.new] }
  match el with
  | PlaceElem.Deref => some ((g1.add_node_edge src dst EdgeOp.Deref).1, dst)
  | PlaceElem.Field idx =>
      some ((g1.add_node_edge src dst (EdgeOp.Field (fieldStr idx))).1, dst)
  | PlaceElem.Downcast (some s) =>
      some ((g1.add_node_edge src dst (EdgeOp.Downcast s)).1, dst)
  | PlaceElem.Downcast none => none
  | PlaceElem.Index idx =>
      some ((((g1.add_node_edge src dst EdgeOp.Index).1).add_node_edge
        idx dst EdgeOp.Index).1, dst)
  | PlaceElem.ConstantIndex =>
      some ((g1.add_node_edge src dst EdgeOp.ConstIndex).1, dst)
  | PlaceElem.Subslice =>
      some ((g1.add_node_edge src dst EdgeOp.SubSlice).1, dst)
  | PlaceElem.Unsupported => none

/-- The projection loop of `Graph::parse_place`. -/
def parse_place_go (g : Graph) (ret : Nat) :
    List PlaceElem → Option (Graph × Nat)
  | [] => some (g, ret)
  | el :: rest =>
      match parse_one_step g ret el with
      | none => none
      | some (g', ret') => parse_place_go g' ret' rest

/-- `Graph::parse_place`. -/
def Graph.parse_place (g : Graph) (p : Place) : Option (Graph × Nat) :=
  parse_place_go g p.lcl p.projection

/-- Textual form carried by a MIR constant, plus the type info the
terminator translation inspects. -/
inductive TyKind where
  | FnDef (def_id : Nat)
  | Other
  deriving Repr, DecidableEq

/-- MIR `Const`: only `Val` with its type is inspected by graph.rs. -/
inductive MirConst where
  | Val (s : String) (ty : TyKind)
  | Other (s : String)
  deriving Repr, DecidableEq

/-- `Const::to_string()`. -/
def MirConst.toStr : MirConst → String
  | MirConst.Val s _ => s
  | MirConst.Other s => s

/-- MIR `Operand`. -/
inductive Operand where
  | Copy (p : Place)
  | Move (p : Place)
  | Constant (c : MirConst)
  deriving Repr, DecidableEq

/-- `Graph::add_operand`. -/
def Graph.add_operand (g : Graph) (op : Operand) (dst : Nat) : Option Graph :=
  match op with
  | Operand.Copy p =>
      match g.parse_place p with
      | none => none
      | some (g', src) => some (g'.add_node_edge src dst EdgeOp.Copy).1
  | Operand.Move p =>
      match g.parse_place p with
      | none => none
      | some (g', src) => some (g'.add_node_edge src dst EdgeOp.Move).1
  | Operand.Constant c =>
      some (g.add_const_edge c.toStr dst EdgeOp.Const).1

/-- Set the span recorded on node `i` (a `self.nodes[i].span = ...` write). -/
def Graph.set_node_span (g : Graph) (i : Nat) (sp : Nat) : Graph :=
  { g with nodes := listModify g.nodes i (fun n => { n with span := sp }) }

/-- Set the operation tag of node `i` (a `self.nodes[i].op = ...` write). -/
def Graph.set_node_op (g : Graph) (i : Nat) (op : NodeOp) : Graph :=
  { g with nodes := listModify g.nodes i (fun n => { n with op := op }) }

/-- `self.nodes[i].seq += 1`. -/
def Graph.bump_seq (g : Graph) (i : Nat) : Graph :=
  { g with nodes := listModify g.nodes i (fun n => { n with seq := n.seq + 1 }) }

/-- MIR `BorrowKind`, as matched by graph.rs. -/
inductive BorrowKind where
  | Shared
  | Mut
  | Fake
  deriving Repr, DecidableEq

/-- MIR `AggregateKind`, as matched by graph.rs (`Unsupported` stands for the
variants hitting the `todo!()` arm). -/
inductive AggregateKind where
  | Array
  | Tuple
  | Adt (def_id : Nat)
  | Closure (def_id : Nat)
  | Unsupported
  deriving Repr, DecidableEq

/-- MIR `Rvalue`, as matched by graph.rs. -/
inductive Rvalue where
  | Use (op : Operand)
  | Repeat (op : Operand)
  | Ref (bk : BorrowKind) (p : Place)
  | Len (p : Place)
  | Cast (op : Operand)
  | BinaryOp (op1 op2 : Operand)
  | Aggregate (k : AggregateKind) (ops : List Operand)
  | UnaryOp (op : Operand)
  | NullaryOp (tyStr : String)
  | ThreadLocalRef
  | Discriminant (p : Place)
  | ShallowInitBox (op : Operand)
  | CopyForDeref (p : Place)
  | RawPtr
  deriving Repr, DecidableEq

/-- The `for operand in operands.iter()` loop resolving operands into `dst`. -/
def add_operands (g : Graph) (ops : List Operand) (dst : Nat) : Option Graph :=
  match ops with
  | [] => some g
  | op :: rest =>
      match g.add_operand op dst with
      | none => none
      | some g' => add_operands g' rest dst

/-- Numeric encoding of the aggregate sub-kind stored in a `NodeOp.Aggregate`. -/
def aggTag : AggregateKind → Nat × Nat
  | AggregateKind.Array => (0, 0)
  | AggregateKind.Tuple => (1, 0)
  | AggregateKind.Adt d => (2, d)
  | AggregateKind.Closure d => (3, d)
  | AggregateKind.Unsupported => (4, 0)

/-- The rvalue dispatch of `Graph::add_statm_to_graph` (everything between
resolving the destination and the final seq increment). -/
def Graph.add_rvalue (g : Graph) (rv : Rvalue) (dst : Nat) : Option Graph :=
  match rv with
  | Rvalue.Use op =>
      (g.add_operand op dst).map (fun g' => g'.set_node_op dst NodeOp.Use)
  | Rvalue.Repeat op =>
      (g.add_operand op dst).map (fun g' => g'.set_node_op dst NodeOp.Repeat)
  | Rvalue.Ref bk p =>
      let eop := match bk with
        | BorrowKind.Shared => EdgeOp.Immut
        | BorrowKind.Mut => EdgeOp.Mut
        | BorrowKind.Fake => EdgeOp.Nop
      match g.parse_place p with
      | none => none
      | some (g', src) =>
          some (((g'.add_node_edge src dst eop).1).set_node_op dst NodeOp.Ref)
  | Rvalue.Len p =>
      match g.parse_place p with
      | none => none
      | some (g', src) =>
          some (((g'.add_node_edge src dst EdgeOp.Nop).1).set_node_op dst
            NodeOp.Len)
  | Rvalue.Cast op =>
      (g.add_operand op dst).map (fun g' => g'.set_node_op dst NodeOp.Cast)
  | Rvalue.BinaryOp o1 o2 =>
      match g.add_operand o1 dst with
      | none => none
      | some g1 =>
          match g1.add_operand o2 dst with
          | none => none
          | some g2 => some (g2.set_node_op dst NodeOp.CheckedBinaryOp)
  | Rvalue.Aggregate k ops =>
      match add_operands g ops dst with
      | none => none
      | some g1 =>
          match k with
          | AggregateKind.Unsupported => none
          | _ =>
              some (g1.set_node_op dst
                (NodeOp.Aggregate (aggTag k).1 (aggTag k).2))
  | Rvalue.UnaryOp op =>
      (g.add_operand op dst).map (fun g' => g'.set_node_op dst NodeOp.UnaryOp)
  | Rvalue.NullaryOp tyStr =>
      some (((g.add_const_edge tyStr dst EdgeOp.Nop).1).set_node_op dst
        NodeOp.NullaryOp)
  | Rvalue.ThreadLocalRef => none
  | Rvalue.Discriminant p =>
      match g.parse_place p with
      | none => none
      | some (g', src) =>
          some (((g'.add_node_edge src dst EdgeOp.Nop).1).set_node_op dst
            NodeOp.Discriminant)
  | Rvalue.ShallowInitBox op =>
      (g.add_operand op dst).map
        (fun g' => g'.set_node_op dst NodeOp.ShallowInitBox)
  | Rvalue.CopyForDeref p =>
      match g.parse_place p with
      | none => none
      | some (g', src) =>
          some (((g'.add_node_edge src dst EdgeOp.Nop).1).set_node_op dst
            NodeOp.CopyForDeref)
  | Rvalue.RawPtr => none

/-- MIR `StatementKind`, collapsing every non-assignment kind. -/
inductive StatementKind where
  | Assign (place : Place) (rv : Rvalue)
  | OtherStmt
  deriving Repr, DecidableEq

/-- MIR `Statement` (kind plus `source_info.span`). -/
structure Statement where
  kind : StatementKind
  span : Nat
  deriving Repr, DecidableEq

/-- `Graph::add_statm_to_graph`. -/
def Graph.add_statm_to_graph (g : Graph) (stmt : Statement) : Option Graph :=
  match stmt.kind with
  | StatementKind.Assign place rv =>
      match g.parse_place place with
      | none => none
      | some (g1, dst) =>
          let g2 := g1.set_node_span dst stmt.span
          match g2.add_rvalue rv dst with
          | none => none
          | some g3 => some (g3.bump_seq dst)
  | StatementKind.OtherStmt => some g

/-- MIR `TerminatorKind`, collapsing every non-call kind. -/
inductive TerminatorKind where
  | Call (func : Operand) (args : List Operand) (destination : Place)
  | OtherTerm
  deriving Repr, DecidableEq

/-- MIR `Terminator` (kind plus `source_info.span`). -/
structure Terminator where
  kind : TerminatorKind
  span : Nat
  deriving Repr, DecidableEq

/-- `Graph::add_terminator_to_graph`. -/
def Graph.add_terminator_to_graph (g : Graph) (t : Terminator) : Option Graph :=
  match t.kind with
  | TerminatorKind.Call func args destP =>
      let dst := destP.lcl
      let afterFunc : Option Graph :=
        match func with
        | Operand.Constant c =>
            match c with
            | MirConst.Val _ (TyKind.FnDef def_id) =>
                (add_operands g args dst).map
                  (fun g' => g'.set_node_op dst (NodeOp.Call def_id))
            | _ => some g
        | Operand.Move p =>
            match g.add_operand (Operand.Move p) dst with
            | none => none
            | some g1 =>
                (add_operands g1 args dst).map
                  (fun g2 => g2.set_node_op dst NodeOp.CallOperand)
        | Operand.Copy _ => none
      afterFunc.map (fun g2 => (g2.set_node_span dst t.span).bump_seq dst)
  | TerminatorKind.OtherTerm => some g

/-- `DFSStatus` from graph.rs. -/
inductive DFSStatus where
  | Continue
  | Stop
  deriving Repr, DecidableEq

/-- `Direction` from graph.rs. -/
inductive Direction where
  | Upside
  | Downside
  | Both
  deriving Repr, DecidableEq

/-- The `traverse!` edge loop of `Graph::dfs`: walks an edge-id list, follows
each edge admitted by the validator through `recur` (the recursive search at
one fuel less), and early-returns `Stop` when a recursive call stops and
`traverse_all` is false.  `useSrc` selects the neighbor endpoint (`src` for
upside, `dst` for downside). -/
def dfsEdges {σ : Type} (g : Graph) (ev : Graph → Nat → DFSStatus)
    (ta : Bool) (recur : Nat → σ → Option (σ × DFSStatus)) :
    List Nat → Bool → σ → Option (σ × DFSStatus)
  | [], _, s => some (s, DFSStatus.Continue)
  | e :: rest, useSrc, s =>
      match ev g e with
      | DFSStatus.Stop => dfsEdges g ev ta recur rest useSrc s
      | DFSStatus.Continue =>
          let nb := if useSrc then (g.edge e).src else (g.edge e).dst
          match recur nb s with
          | none => none
          | some (s2, DFSStatus.Stop) =>
              if ta then dfsEdges g ev ta recur rest useSrc s2
              else some (s2, DFSStatus.Stop)
          | some (s2, DFSStatus.Continue) => dfsEdges g ev ta recur rest useSrc s2

/-- `Graph::dfs`, with an explicit fuel bound (the Rust function recurses
without cycle detection; `none` means the fuel ran out).  The mutable state
captured by the Rust closures is threaded explicitly as `σ`. -/
def Graph.dfs {σ : Type} (g : Graph) (dir : Direction)
    (no : Graph → σ → Nat → σ × DFSStatus)
    (ev : Graph → Nat → DFSStatus) (ta : Bool) :
    Nat → Nat → σ → Option (σ × DFSStatus)
  | 0, _, _ => none
  | fuel + 1, now, s =>
      match no g s now with
      | (s1, DFSStatus.Stop) => some (s1, DFSStatus.Stop)
      | (s1, DFSStatus.Continue) =>
          let recur := fun l st => g.dfs dir no ev ta fuel l st
          match dir with
          | Direction.Upside =>
              dfsEdges g ev ta recur (g.node now).in_edges true s1
          | Direction.Downside =>
              dfsEdges g ev ta recur (g.node now).out_edges false s1
          | Direction.Both =>
              match dfsEdges g ev ta recur (g.node now).in_edges true s1 with
              | some (s2, DFSStatus.Continue) =>
                  dfsEdges g ev ta recur (g.node now).out_edges false s2
              | other => other

/-- `Graph::equivalent_edge_validator`. -/
def Graph.equivalent_edge_validator (g : Graph) (e : Nat) : DFSStatus :=
  match (g.edge e).op with
  | EdgeOp.Copy => DFSStatus.Continue
  | EdgeOp.Move => DFSStatus.Continue
  | EdgeOp.Mut => DFSStatus.Continue
  | EdgeOp.Immut => DFSStatus.Continue
  | _ => DFSStatus.Stop

/-- `Graph::always_true_edge_validator`. -/
def Graph.always_true_edge_validator (_ : Graph) (_ : Nat) : DFSStatus :=
  DFSStatus.Continue

/-- Whether a node tag is admitted by the equivalence-class searches
(the `Nop | Use | Ref` arms of both closures in
`Graph::collect_equivalent_locals`). -/
def equivAdmits : NodeOp → Bool
  | NodeOp.Nop => true
  | NodeOp.Use => true
  | NodeOp.Ref => true
  | _ => false

/-- `find_root_operator` from `Graph::collect_equivalent_locals`:
the threaded state is the captured `root` variable. -/
def find_root_operator (g : Graph) (root : Nat) (idx : Nat) :
    Nat × DFSStatus :=
  if equivAdmits (g.node idx).op then (idx, DFSStatus.Continue)
  else (root, DFSStatus.Stop)

/-- `find_equivalent_operator` from `Graph::collect_equivalent_locals`:
the threaded state is the captured result set. -/
def find_equivalent_operator (g : Graph) (s : Finset Nat) (idx : Nat) :
    Finset Nat × DFSStatus :=
  if idx ∈ s then (s, DFSStatus.Stop)
  else if equivAdmits (g.node idx).op then (insert idx s, DFSStatus.Continue)
  else (s, DFSStatus.Stop)

/-- The first (upside) search of `Graph::collect_equivalent_locals`,
returning the final value of the captured `root` variable. -/
def Graph.find_equiv_root (g : Graph) (fuel : Nat) (start : Nat) :
    Option Nat :=
  (g.dfs Direction.Upside find_root_operator Graph.equivalent_edge_validator
    true fuel start start).map (fun r => r.1)

/-- `Graph::collect_equivalent_locals` (root search, then downside
collection from the root). -/
def Graph.collect_equivalent_locals (g : Graph) (fuel : Nat) (start : Nat) :
    Option (Finset Nat) :=
  match g.find_equiv_root fuel start with
  | none => none
  | some root =>
      (g.dfs Direction.Downside find_equivalent_operator
        Graph.equivalent_edge_validator true fuel root ∅).map (fun r => r.1)

/-- The node operator of `Graph::is_connected`: the threaded state is the
captured `find` flag, overwritten with `idx == target` at every visit. -/
def connect_node_operator (target : Nat) (_ : Graph) (_ : Bool)
    (idx : Nat) : Bool × DFSStatus :=
  if idx = target then (true, DFSStatus.Stop) else (false, DFSStatus.Continue)

/-- `Graph::is_connected`: downside search first, then upside if not found. -/
def Graph.is_connected (g : Graph) (fuel : Nat) (idx1 idx2 : Nat) :
    Option Bool :=
  match g.dfs Direction.Downside (connect_node_operator idx2)
      Graph.always_true_edge_validator false fuel idx1 false with
  | none => none
  | some (find, _) =>
      if find then some true
      else
        (g.dfs Direction.Upside (connect_node_operator idx2)
          Graph.always_true_edge_validator false fuel idx1 find).map
          (fun r => r.1)

/-- `Option`-valued map over a list, `none` as soon as one element fails
(the fuel-aware version of the infallible `map`/`collect` in
`Graph::param_return_deps`). -/
def optMap (f : α → Option β) : List α → Option (List β)
  | [] => some []
  | a :: as =>
      match f a with
      | none => none
      | some b => (optMap f as).map (fun bs => b :: bs)

/-- `Graph::param_return_deps`. -/
def Graph.param_return_deps (g : Graph) (fuel : Nat) : Option (List Bool) :=
  optMap (fun i => g.is_connected fuel i 0) (List.range (g.argc + 1))

/-- `Graph::get_upside_idx`. -/
def Graph.get_upside_idx (g : Graph) (node_idx : Nat) (order : Nat) :
    Option Nat :=
  match (g.node node_idx).in_edges.get? order with
  | some e => some (g.edge e).src
  | none => none

/-- `Graph::get_downside_idx`. -/
def Graph.get_downside_idx (g : Graph) (node_idx : Nat) (order : Nat) :
    Option Nat :=
  match (g.node node_idx).out_edges.get? order with
  | some e => some (g.edge e).dst
  | none => none

/-- The exhaustive (no-early-exit) edge walk: what the `traverse!` loop does
when `traverse_all` is true — every admitted edge is followed and branch
outcomes are ignored. -/
def dfsEdgesAll {σ : Type} (g : Graph) (ev : Graph → Nat → DFSStatus)
    (recur : Nat → σ → Option (σ × DFSStatus)) :
    List Nat → Bool → σ → Option σ
  | [], _, s => some s
  | e :: rest, useSrc, s =>
      match ev g e with
      | DFSStatus.Stop => dfsEdgesAll g ev recur rest useSrc s
      | DFSStatus.Continue =>
          match recur (if useSrc then (g.edge e).src else (g.edge e).dst) s with
          | none => none
          | some (s2, _) => dfsEdgesAll g ev recur rest useSrc s2

/-- The number of edges appended between two snapshots of a growing graph
whose destination is `d`: counts ids in `[g.edges.length, g'.edges.length)`
whose edge (in `g'`) has destination `d`.  Used to state that every operand
resolved into a destination contributes exactly one edge into it. -/
def newEdgesInto (g g' : Graph) (d : Nat) : Nat :=
  (List.range g'.edges.length).countP
    (fun e => decide (g.edges.length <= e) && ((g'.edge e).dst == d))

/-- Whether a MIR constant is a compile-time function value (`Const::Val`
whose type is `TyKind::FnDef`), the only call-target constant the
terminator translation acts on. -/
def isFnDefVal : MirConst → Bool
  | MirConst.Val _ (TyKind.FnDef _) => true
  | _ => false

/-- Validity of one projection step: an `Index` step names a real MIR
local (in Rust an out-of-range local would panic on `IndexVec` access). -/
def PlaceElemValid (g : Graph) : PlaceElem → Prop
  | PlaceElem.Index i => i < g.n_locals
  | _ => True

/-- Validity of a MIR place: its base local and any index locals are
declared slots of the procedure. -/
def PlaceValid (g : Graph) (p : Place) : Prop :=
  p.lcl < g.n_locals ∧ ∀ el ∈ p.projection, PlaceElemValid g el

/-- Validity of a MIR operand. -/
def OperandValid (g : Graph) : Operand → Prop
  | Operand.Copy p => PlaceValid g p
  | Operand.Move p => PlaceValid g p
  | Operand.Constant _ => True

/-- Validity of a MIR rvalue. -/
def RvalueValid (g : Graph) : Rvalue → Prop
  | Rvalue.Use op => OperandValid g op
  | Rvalue.Repeat op => OperandValid g op
  | Rvalue.Ref _ p => PlaceValid g p
  | Rvalue.Len p => PlaceValid g p
  | Rvalue.Cast op => OperandValid g op
  | Rvalue.BinaryOp o1 o2 => OperandValid g o1 ∧ OperandValid g o2
  | Rvalue.Aggregate _ ops => ∀ o ∈ ops, OperandValid g o
  | Rvalue.UnaryOp op => OperandValid g op
  | Rvalue.NullaryOp _ => True
  | Rvalue.ThreadLocalRef => True
  | Rvalue.Discriminant p => PlaceValid g p
  | Rvalue.ShallowInitBox op => OperandValid g op
  | Rvalue.CopyForDeref p => PlaceValid g p
  | Rvalue.RawPtr => True

/-- Validity of a MIR statement. -/
def StmtValid (g : Graph) (stmt : Statement) : Prop :=
  match stmt.kind with
  | StatementKind.Assign place rv => PlaceValid g place ∧ RvalueValid g rv
  | StatementKind.OtherStmt => True

/-- Validity of a MIR terminator. -/
def TermValid (g : Graph) (t : Terminator) : Prop :=
  match t.kind with
  | TerminatorKind.Call func args destP =>
      OperandValid g func ∧ (∀ a ∈ args, OperandValid g a) ∧
        destP.lcl < g.n_locals
  | TerminatorKind.OtherTerm => True

/-- The graphs reachable from `Graph::new` by the building operations
(`add_node_edge`, `add_const_edge` and everything built on them), with the
index-validity side conditions under which the Rust code does not panic. -/
inductive Built : Graph → Prop where
  | new : ∀ d sp argc n, Built (Graph.new d sp argc n)
  | node_edge : ∀ g s d op, Built g → s < g.nodes.length → d < g.nodes.length →
      Built (g.add_node_edge s d op).1
  | const_edge : ∀ g str d op, Built g → d < g.nodes.length →
      Built (g.add_const_edge str d op).1
  | operand : ∀ g op d g', Built g → OperandValid g op → d < g.n_locals →
      g.add_operand op d = some g' → Built g'
  | statm : ∀ g stmt g', Built g → StmtValid g stmt →
      g.add_statm_to_graph stmt = some g' → Built g'
  | term : ∀ g t g', Built g → TermValid g t →
      g.add_terminator_to_graph t = some g' → Built g'

/-- Every node's `in_edges` list is exactly the list of ids of edges whose
destination is that node. -/
def InEdgesExact (g : Graph) : Prop :=
  ∀ n, (g.node n).in_edges =
    (List.range g.edges.length).filter (fun e => (g.edge e).dst == n)

/-- Every node's `out_edges` list is exactly the list of ids of edges whose
source is that node — the out half of the claim as stated. -/
def OutEdgesExact (g : Graph) : Prop :=
  ∀ n, (g.node n).out_edges =
    (List.range g.edges.length).filter (fun e => (g.edge e).src == n)

/-- Every id in a node's `out_edges` names a real edge whose source is that
node. -/
def OutEdgesSound (g : Graph) : Prop :=
  ∀ n e, e ∈ (g.node n).out_edges →
    e < g.edges.length ∧ (g.edge e).src = n

/-- Every edge appears in its source node's `out_edges`, except edges whose
source is a constant node (`add_const_edge` omits that push). -/
def OutEdgesCompleteNonConst (g : Graph) : Prop :=
  ∀ e, e < g.edges.length →
    (∃ s, (g.node (g.edge e).src).op = NodeOp.Const s) ∨
      e ∈ (g.node (g.edge e).src).out_edges

/-- The full builder invariant carried through the `Built` induction. -/
structure BuildInv (g : Graph) : Prop where
  nl_le : g.n_locals ≤ g.nodes.length
  locals_not_const : ∀ i, i < g.n_locals → ∀ s, (g.node i).op ≠ NodeOp.Const s
  edges_valid : ∀ e, e < g.edges.length →
    (g.edge e).src < g.nodes.length ∧ (g.edge e).dst < g.nodes.length
  in_exact : InEdgesExact g
  out_sound : OutEdgesSound g
  out_complete : OutEdgesCompleteNonConst g

/-! ### Concrete example inputs used by counterexamples and witnesses -/

/-- A three-slot procedure graph with one parameter (slot 1). -/
def exG3 : Graph := Graph.new 0 0 1 3

/-- A four-slot procedure graph with two parameters. -/
def exG4 : Graph := Graph.new 0 0 2 4

/-- The assignment `_2 = Use(copy _1)`. -/
def exStmtUse : Statement :=
  { kind := StatementKind.Assign { lcl := 2, projection := [] }
      (Rvalue.Use (Operand.Copy { lcl := 1, projection := [] })), span := 9 }

/-- `exG3` after translating `exStmtUse` (parameter 1 copied into slot 2). -/
def exGq : Graph := (exG3.add_statm_to_graph exStmtUse).getD exG3

/-- A direct call terminator `_0 = f(copy _1)` with a constant `FnDef` target. -/
def exTermCall : Terminator :=
  { kind := TerminatorKind.Call (Operand.Constant (MirConst.Val "f" (TyKind.FnDef 7)))
      [Operand.Copy { lcl := 1, projection := [] }] { lcl := 0, projection := [] },
    span := 4 }

/-- `exG3` after translating `exTermCall`. -/
def exGterm : Graph := (exG3.add_terminator_to_graph exTermCall).getD exG3

/-- An indirect call terminator `_0 = (*_1)(copy _2)` whose moved callee
place carries a projection (a dereference step). -/
def exTermMove : Terminator :=
  { kind := TerminatorKind.Call
      (Operand.Move { lcl := 1, projection := [PlaceElem.Deref] })
      [Operand.Copy { lcl := 2, projection := [] }] { lcl := 0, projection := [] },
    span := 4 }

/-- `exG4` after translating `exTermMove`. -/
def exGmove : Graph := (exG4.add_terminator_to_graph exTermMove).getD exG4

/-- A call terminator whose target is a constant that is not a `FnDef` value. -/
def exTermSilent : Terminator :=
  { kind := TerminatorKind.Call (Operand.Constant (MirConst.Other "c")) []
      { lcl := 0, projection := [] }, span := 7 }

/-- A call terminator whose target is a copy operand (the aborting shape). -/
def exTermCopy : Terminator :=
  { kind := TerminatorKind.Call (Operand.Copy { lcl := 1, projection := [] }) []
      { lcl := 0, projection := [] }, span := 7 }

/-- A one-node graph whose only slot is tagged with a computation
(checked binary op), so the equivalence predicate rejects it. -/
def exGbin : Graph :=
  { def_id := 0, span := 0, argc := 0,
    nodes := [{ op := NodeOp.CheckedBinaryOp, span := 0, seq := 0,
                out_edges := [], in_edges := [] }],
    edges := [], n_locals := 1 }

/-- A one-slot graph after one `add_const_edge` into slot 0. -/
def exGconst : Graph := ((Graph.new 0 0 0 1).add_const_edge "c" 0 EdgeOp.Const).1

/-- `exG4` after resolving the place `_1[_2]`: its node 4 is a fresh marker
with two incoming `Index`-tagged edges (edge 0 from slot 1, edge 1 from
slot 2). -/
def exGidx : Graph :=
  ((exG4.parse_place { lcl := 1, projection := [PlaceElem.Index 2] }).getD
    (exG4, 0)).1

/-- A non-assignment statement. -/
def exStmtOther : Statement := { kind := StatementKind.OtherStmt, span := 3 }

/-- A non-call terminator. -/
def exTermOther : Terminator := { kind := TerminatorKind.OtherTerm, span := 3 }

/-! ### List helper lemmas -/

theorem listModify_length (l : List α) (i : Nat) (f : α → α) :
    (listModify l i f).length = l.length := by
  induction l generalizing i with
  | nil => rfl
  | cons a as ih =>
      cases i with
      | zero => rfl
      | succ n => simp [listModify, ih]

theorem listModify_getD_self (l : List α) (i : Nat) (f : α → α) (d : α)
    (h : i < l.length) : (listModify l i f).getD i d = f (l.getD i d) := by
  induction l generalizing i with
  | nil => simp at h
  | cons a as ih =>
      cases i with
      | zero => rfl
      | succ n =>
          simp only [listModify, List.getD_cons_succ]
          exact ih n (by simpa using h)

theorem listModify_getD_ne (l : List α) (i j : Nat) (f : α → α) (d : α)
    (h : j ≠ i) : (listModify l i f).getD j d = l.getD j d := by
  induction l generalizing i j with
  | nil => rfl
  | cons a as ih =>
      cases i with
      | zero =>
          cases j with
          | zero => exact absurd rfl h
          | succ m => rfl
      | succ n =>
          cases j with
          | zero => rfl
          | succ m =>
              simp only [listModify, List.getD_cons_succ]
              exact ih n m (fun hc => h (by omega))

theorem listModify_getD_oob (l : List α) (i : Nat) (f : α → α)
    (h : l.length ≤ i) : listModify l i f = l := by
  induction l generalizing i with
  | nil => rfl
  | cons a as ih =>
      cases i with
      | zero => simp at h
      | succ n =>
          simp only [listModify]
          rw [ih n (by simpa using h)]

theorem getD_append_left (l l' : List α) (i : Nat) (d : α)
    (h : i < l.length) : (l ++ l').getD i d = l.getD i d := by
  induction l generalizing i with
  | nil => simp at h
  | cons a as ih =>
      cases i with
      | zero => rfl
      | succ n =>
          simp only [List.cons_append, List.getD_cons_succ]
          exact ih n (by simpa using h)

theorem getD_append_len (l : List α) (x : α) (d : α) :
    (l ++ [x]).getD l.length d = x := by
  induction l with
  | nil => rfl
  | cons a as ih => simpa using ih

theorem getD_oob (l : List α) (i : Nat) (d : α) (h : l.length ≤ i) :
    l.getD i d = d := by
  induction l generalizing i with
  | nil => cases i <;> rfl
  | cons a as ih =>
      cases i with
      | zero => simp at h
      | succ n => simpa using ih n (by simpa using h)

theorem getD_replicate (n i : Nat) (d : α) (x : α) :
    (List.replicate n x).getD i d = if i < n then x else d := by
  induction n generalizing i with
  | zero =>
      simp [List.replicate]
  | succ m ih =>
      cases i with
      | zero => simp [List.replicate]
      | succ k =>
          have := ih k
          simp only [List.getD] at this ⊢
          rw [List.get?_eq_getElem?] at this
          simp [List.replicate, this, Nat.succ_lt_succ_iff]

theorem getD_range (n i : Nat) (h : i < n) : (List.range n).getD i 0 = i := by
  rw [List.getD_eq_getElem?_getD, List.getElem?_range h]
  rfl

/-- Characterization of a successful `optMap`: same length, elementwise. -/
theorem optMap_some_char (f : α → Option β) (l : List α) (res : List β)
    (h : optMap f l = some res) (d : α) (d' : β) :
    res.length = l.length ∧
      ∀ i < l.length, f (l.getD i d) = some (res.getD i d') := by
  induction l generalizing res with
  | nil =>
      simp only [optMap] at h
      cases h
      exact ⟨rfl, fun i hi => by simp at hi⟩
  | cons a as ih =>
      simp only [optMap] at h
      cases hfa : f a with
      | none => rw [hfa] at h; simp at h
      | some b =>
          rw [hfa] at h
          cases hrest : optMap f as with
          | none => rw [hrest] at h; simp at h
          | some bs =>
              rw [hrest] at h
              simp only [Option.map_some] at h
              cases h
              obtain ⟨hlen, helem⟩ := ih bs hrest
              refine ⟨by simp [hlen], fun i hi => ?_⟩
              cases i with
              | zero => simpa using hfa
              | succ k =>
                  simp only [List.getD_cons_succ]
                  exact helem k (by simpa using hi)

/-! ### Structural lemmas about the builder operations -/

/-- The seq counter of the node at index `n` (0 for indices never written). -/
def seqOf (g : Graph) (n : Nat) : Nat := (g.node n).seq

theorem ane_fst_edges (g : Graph) (s d : Nat) (op : EdgeOp) :
    (g.add_node_edge s d op).1.edges =
      g.edges ++ [{ src := s, dst := d, op := op, seq := (g.node d).seq }] := rfl

theorem ane_fst_nodes (g : Graph) (s d : Nat) (op : EdgeOp) :
    (g.add_node_edge s d op).1.nodes =
      listModify
        (listModify g.nodes d
          (fun n => { n with in_edges := n.in_edges ++ [g.edges.length] }))
        s (fun n => { n with out_edges := n.out_edges ++ [g.edges.length] }) := rfl

theorem ane_n_locals (g : Graph) (s d : Nat) (op : EdgeOp) :
    (g.add_node_edge s d op).1.n_locals = g.n_locals := rfl

theorem ane_nodes_length (g : Graph) (s d : Nat) (op : EdgeOp) :
    (g.add_node_edge s d op).1.nodes.length = g.nodes.length := by
  rw [ane_fst_nodes, listModify_length, listModify_length]

theorem seqOf_ane (g : Graph) (s d : Nat) (op : EdgeOp) (n : Nat) :
    seqOf (g.add_node_edge s d op).1 n = seqOf g n := by
  unfold seqOf Graph.node
  rw [ane_fst_nodes]
  by_cases hn : n < g.nodes.length
  · by_cases hs : n = s
    · subst hs
      rw [listModify_getD_self _ _ _ _ (by rwa [listModify_length])]
      by_cases hd : n = d
      · subst hd
        rw [listModify_getD_self _ _ _ _ hn]
      · rw [listModify_getD_ne _ _ _ _ _ hd]
    · rw [listModify_getD_ne _ _ _ _ _ hs]
      by_cases hd : n = d
      · subst hd
        rw [listModify_getD_self _ _ _ _ hn]
      · rw [listModify_getD_ne _ _ _ _ _ hd]
  · push_neg at hn
    rw [getD_oob _ _ _ (by rw [listModify_length, listModify_length]; exact hn),
      getD_oob _ _ _ hn]

theorem ace_fst_edges (g : Graph) (s : String) (d : Nat) (op : EdgeOp) :
    (g.add_const_edge s d op).1.edges =
      g.edges ++
        [{ src := g.nodes.length, dst := d, op := op, seq := (g.node d).seq }] := rfl

theorem ace_fst_nodes (g : Graph) (s : String) (d : Nat) (op : EdgeOp) :
    (g.add_const_edge s d op).1.nodes =
      listModify (g.nodes ++ [{ GraphNode.new with op := NodeOp.Const s }]) d
        (fun n => { n with in_edges := n.in_edges ++ [g.edges.length] }) := rfl

theorem ace_n_locals (g : Graph) (s : String) (d : Nat) (op : EdgeOp) :
    (g.add_const_edge s d op).1.n_locals = g.n_locals := rfl

theorem ace_nodes_length (g : Graph) (s : String) (d : Nat) (op : EdgeOp) :
    (g.add_const_edge s d op).1.nodes.length = g.nodes.length + 1 := by
  rw [ace_fst_nodes, listModify_length]
  simp

theorem seqOf_ace (g : Graph) (s : String) (d : Nat) (op : EdgeOp) (n : Nat) :
    seqOf (g.add_const_edge s d op).1 n = seqOf g n := by
  unfold seqOf Graph.node
  rw [ace_fst_nodes]
  rcases Nat.lt_trichotomy n g.nodes.length with hn | hn | hn
  · by_cases hd : n = d
    · subst hd
      rw [listModify_getD_self _ _ _ _ (by simp; omega),
        getD_append_left _ _ _ _ hn]
    · rw [listModify_getD_ne _ _ _ _ _ hd, getD_append_left _ _ _ _ hn]
  · subst hn
    by_cases hd : g.nodes.length = d
    · subst hd
      rw [listModify_getD_self _ _ _ _ (by simp),
        getD_append_len, getD_oob _ _ _ (le_refl _)]
    · rw [listModify_getD_ne _ _ _ _ _ hd, getD_append_len,
        getD_oob _ _ _ (le_refl _)]
  · by_cases hd : n = d
    · subst hd
      rw [listModify_getD_oob _ _ _ (by simp; omega)]
      rw [getD_oob _ _ _ (by simp; omega), getD_oob _ _ _ (by omega)]
    · rw [listModify_getD_ne _ _ _ _ _ hd]
      rw [getD_oob _ _ _ (by simp; omega), getD_oob _ _ _ (by omega)]

theorem seqOf_set_node_span (g : Graph) (i : Nat) (sp : Nat) (n : Nat) :
    seqOf (g.set_node_span i sp) n = seqOf g n := by
  unfold seqOf Graph.node Graph.set_node_span
  by_cases hn : n = i
  · subst hn
    by_cases h : n < g.nodes.length
    · rw [listModify_getD_self _ _ _ _ h]
    · push_neg at h
      rw [listModify_getD_oob _ _ _ h]
  · rw [listModify_getD_ne _ _ _ _ _ hn]

theorem seqOf_set_node_op (g : Graph) (i : Nat) (op : NodeOp) (n : Nat) :
    seqOf (g.set_node_op i op) n = seqOf g n := by
  unfold seqOf Graph.node Graph.set_node_op
  by_cases hn : n = i
  · subst hn
    by_cases h : n < g.nodes.length
    · rw [listModify_getD_self _ _ _ _ h]
    · push_neg at h
      rw [listModify_getD_oob _ _ _ h]
  · rw [listModify_getD_ne _ _ _ _ _ hn]

theorem seqOf_bump_self (g : Graph) (i : Nat) (h : i < g.nodes.length) :
    seqOf (g.bump_seq i) i = seqOf g i + 1 := by
  unfold seqOf Graph.node Graph.bump_seq
  rw [listModify_getD_self _ _ _ _ h]

theorem bump_edges (g : Graph) (i : Nat) : (g.bump_seq i).edges = g.edges := rfl

theorem set_node_span_edges (g : Graph) (i : Nat) (sp : Nat) :
    (g.set_node_span i sp).edges = g.edges := rfl

theorem set_node_op_edges (g : Graph) (i : Nat) (op : NodeOp) :
    (g.set_node_op i op).edges = g.edges := rfl

theorem set_node_span_nodes_length (g : Graph) (i : Nat) (sp : Nat) :
    (g.set_node_span i sp).nodes.length = g.nodes.length := by
  unfold Graph.set_node_span
  exact listModify_length _ _ _

theorem set_node_op_nodes_length (g : Graph) (i : Nat) (op : NodeOp) :
    (g.set_node_op i op).nodes.length = g.nodes.length := by
  unfold Graph.set_node_op
  exact listModify_length _ _ _

theorem bump_nodes_length (g : Graph) (i : Nat) :
    (g.bump_seq i).nodes.length = g.nodes.length := by
  unfold Graph.bump_seq
  exact listModify_length _ _ _

/-! ### Batch/seq bookkeeping: relation between a graph and an extension of it

`RelNew g g'` holds when `g'` extends `g` without touching any seq counter:
old edges are intact and every newly appended edge is stamped with the
(unchanged) seq of its destination.  All builder steps except the final
`seq += 1` preserve it. -/

structure RelNew (g g' : Graph) : Prop where
  seq_eq : ∀ n, seqOf g' n = seqOf g n
  nodes_le : g.nodes.length ≤ g'.nodes.length
  edges_le : g.edges.length ≤ g'.edges.length
  edges_old : ∀ e, e < g.edges.length → g'.edge e = g.edge e
  edges_new : ∀ e, g.edges.length ≤ e → e < g'.edges.length →
    (g'.edge e).seq = seqOf g ((g'.edge e).dst)

theorem RelNew.self_rel (g : Graph) : RelNew g g :=
  ⟨fun _ => Eq.refl _, le_refl _, le_refl _, fun _ _ => Eq.refl _,
    fun e he he' => absurd (Nat.lt_of_le_of_lt he he') (lt_irrefl _)⟩

theorem RelNew.trans_rel {g1 g2 g3 : Graph} (h12 : RelNew g1 g2)
    (h23 : RelNew g2 g3) : RelNew g1 g3 := by
  refine ⟨fun n => (h23.seq_eq n).trans (h12.seq_eq n),
    le_trans h12.nodes_le h23.nodes_le,
    le_trans h12.edges_le h23.edges_le,
    fun e he => ((h23.edges_old e (Nat.lt_of_lt_of_le he h12.edges_le)).trans
      (h12.edges_old e he)),
    fun e he he' => ?_⟩
  by_cases h2 : e < g2.edges.length
  · rw [h23.edges_old e h2]
    exact h12.edges_new e he h2
  · push_neg at h2
    rw [h23.edges_new e h2 he']
    exact h12.seq_eq _

theorem edge_ane_old (g : Graph) (s d : Nat) (op : EdgeOp) (e : Nat)
    (he : e < g.edges.length) : (g.add_node_edge s d op).1.edge e = g.edge e := by
  unfold Graph.edge
  rw [ane_fst_edges]
  exact getD_append_left _ _ _ _ he

theorem edge_ane_new (g : Graph) (s d : Nat) (op : EdgeOp) :
    (g.add_node_edge s d op).1.edge g.edges.length =
      { src := s, dst := d, op := op, seq := seqOf g d } := by
  unfold Graph.edge
  rw [ane_fst_edges]
  exact getD_append_len _ _ _

theorem ane_edges_length (g : Graph) (s d : Nat) (op : EdgeOp) :
    (g.add_node_edge s d op).1.edges.length = g.edges.length + 1 := by
  rw [ane_fst_edges]
  simp

theorem relNew_ane (g : Graph) (s d : Nat) (op : EdgeOp) :
    RelNew g (g.add_node_edge s d op).1 := by
  refine ⟨seqOf_ane g s d op, le_of_eq (ane_nodes_length g s d op).symm,
    by rw [ane_edges_length]; omega,
    fun e he => edge_ane_old g s d op e he, fun e he he' => ?_⟩
  rw [ane_edges_length] at he'
  have : e = g.edges.length := by omega
  subst this
  rw [edge_ane_new]

theorem edge_ace_old (g : Graph) (s : String) (d : Nat) (op : EdgeOp)
    (e : Nat) (he : e < g.edges.length) :
    (g.add_const_edge s d op).1.edge e = g.edge e := by
  unfold Graph.edge
  rw [ace_fst_edges]
  exact getD_append_left _ _ _ _ he

theorem edge_ace_new (g : Graph) (s : String) (d : Nat) (op : EdgeOp) :
    (g.add_const_edge s d op).1.edge g.edges.length =
      { src := g.nodes.length, dst := d, op := op, seq := seqOf g d } := by
  unfold Graph.edge
  rw [ace_fst_edges]
  exact getD_append_len _ _ _

theorem ace_edges_length (g : Graph) (s : String) (d : Nat) (op : EdgeOp) :
    (g.add_const_edge s d op).1.edges.length = g.edges.length + 1 := by
  rw [ace_fst_edges]
  simp

theorem relNew_ace (g : Graph) (s : String) (d : Nat) (op : EdgeOp) :
    RelNew g (g.add_const_edge s d op).1 := by
  refine ⟨seqOf_ace g s d op, by rw [ace_nodes_length]; omega,
    by rw [ace_edges_length]; omega,
    fun e he => edge_ace_old g s d op e he, fun e he he' => ?_⟩
  rw [ace_edges_length] at he'
  have : e = g.edges.length := by omega
  subst this
  rw [edge_ace_new]

theorem seqOf_pushNew (g : Graph) (n : Nat) :
    seqOf { g with nodes := g.nodes ++ [GraphNode.new] } n = seqOf g n := by
  unfold seqOf Graph.node
  rcases Nat.lt_trichotomy n g.nodes.length with hn | hn | hn
  · simp only []
    rw [getD_append_left _ _ _ _ hn]
  · subst hn
    simp only []
    rw [getD_append_len, getD_oob _ _ _ (le_refl _)]
  · simp only []
    rw [getD_oob _ _ _ (by simp; omega), getD_oob _ _ _ (by omega)]

theorem relNew_pushNew (g : Graph) :
    RelNew g { g with nodes := g.nodes ++ [GraphNode.new] } :=
  ⟨seqOf_pushNew g, by simp, le_refl _, fun _ _ => Eq.refl _,
    fun e he he' => absurd (Nat.lt_of_le_of_lt he he') (lt_irrefl _)⟩

theorem relNew_parse_one_step (g : Graph) (src : Nat) (el : PlaceElem)
    (g' : Graph) (ret : Nat) (h : parse_one_step g src el = some (g', ret)) :
    RelNew g g' := by
  cases el <;> simp only [parse_one_step] at h
  case Deref =>
    cases h with
    | refl => exact (relNew_pushNew g).trans_rel (relNew_ane _ _ _ _)
  case Field idx =>
    cases h with
    | refl => exact (relNew_pushNew g).trans_rel (relNew_ane _ _ _ _)
  case Downcast symbol =>
    cases symbol with
    | none => simp at h
    | some s =>
        simp only [Option.some.injEq, Prod.mk.injEq] at h
        obtain ⟨h1, _⟩ := h
        rw [← h1]
        exact (relNew_pushNew g).trans_rel (relNew_ane _ _ _ _)
  case Index idx =>
    cases h with
    | refl =>
        exact ((relNew_pushNew g).trans_rel (relNew_ane _ _ _ _)).trans_rel
          (relNew_ane _ _ _ _)
  case ConstantIndex =>
    cases h with
    | refl => exact (relNew_pushNew g).trans_rel (relNew_ane _ _ _ _)
  case Subslice =>
    cases h with
    | refl => exact (relNew_pushNew g).trans_rel (relNew_ane _ _ _ _)
  case Unsupported => simp at h

theorem relNew_parse_place_go (elems : List PlaceElem) (g : Graph) (ret : Nat)
    (g' : Graph) (ret' : Nat)
    (h : parse_place_go g ret elems = some (g', ret')) : RelNew g g' := by
  induction elems generalizing g ret with
  | nil =>
      simp only [parse_place_go, Option.some.injEq, Prod.mk.injEq] at h
      obtain ⟨h1, _⟩ := h
      rw [← h1]
      exact RelNew.self_rel g
  | cons el rest ih =>
      simp only [parse_place_go] at h
      cases hs : parse_one_step g ret el with
      | none => rw [hs] at h; simp at h
      | some pr =>
          rw [hs] at h
          exact (relNew_parse_one_step g ret el pr.1 pr.2 hs).trans_rel
            (ih pr.1 pr.2 h)

theorem relNew_parse_place (g : Graph) (p : Place) (g' : Graph) (ret : Nat)
    (h : g.parse_place p = some (g', ret)) : RelNew g g' :=
  relNew_parse_place_go p.projection g p.lcl g' ret h

theorem relNew_add_operand (g : Graph) (op : Operand) (dst : Nat) (g' : Graph)
    (h : g.add_operand op dst = some g') : RelNew g g' := by
  cases op with
  | Copy p =>
      simp only [Graph.add_operand] at h
      cases hp : g.parse_place p with
      | none => rw [hp] at h; simp at h
      | some pr =>
          rw [hp] at h
          simp only [Option.some.injEq] at h
          rw [← h]
          exact (relNew_parse_place g p pr.1 pr.2 hp).trans_rel (relNew_ane _ _ _ _)
  | Move p =>
      simp only [Graph.add_operand] at h
      cases hp : g.parse_place p with
      | none => rw [hp] at h; simp at h
      | some pr =>
          rw [hp] at h
          simp only [Option.some.injEq] at h
          rw [← h]
          exact (relNew_parse_place g p pr.1 pr.2 hp).trans_rel (relNew_ane _ _ _ _)
  | Constant c =>
      simp only [Graph.add_operand, Option.some.injEq] at h
      rw [← h]
      exact relNew_ace _ _ _ _

theorem relNew_add_operands (ops : List Operand) (g : Graph) (dst : Nat)
    (g' : Graph) (h : add_operands g ops dst = some g') : RelNew g g' := by
  induction ops generalizing g with
  | nil =>
      simp only [add_operands, Option.some.injEq] at h
      rw [← h]
      exact RelNew.self_rel g
  | cons op rest ih =>
      simp only [add_operands] at h
      cases ho : g.add_operand op dst with
      | none => rw [ho] at h; simp at h
      | some g1 =>
          rw [ho] at h
          exact (relNew_add_operand g op dst g1 ho).trans_rel (ih g1 h)

theorem relNew_set_node_span (g : Graph) (i : Nat) (sp : Nat) :
    RelNew g (g.set_node_span i sp) :=
  ⟨seqOf_set_node_span g i sp, le_of_eq (set_node_span_nodes_length g i sp).symm,
    le_refl _, fun _ _ => Eq.refl _,
    fun e he he' => absurd (Nat.lt_of_le_of_lt he he') (lt_irrefl _)⟩

theorem relNew_set_node_op (g : Graph) (i : Nat) (op : NodeOp) :
    RelNew g (g.set_node_op i op) :=
  ⟨seqOf_set_node_op g i op, le_of_eq (set_node_op_nodes_length g i op).symm,
    le_refl _, fun _ _ => Eq.refl _,
    fun e he he' => absurd (Nat.lt_of_le_of_lt he he') (lt_irrefl _)⟩

theorem parse_one_step_ret_lt (g : Graph) (src : Nat) (el : PlaceElem)
    (g' : Graph) (ret : Nat) (h : parse_one_step g src el = some (g', ret)) :
    ret < g'.nodes.length := by
  cases el <;> simp only [parse_one_step] at h
  case Deref =>
    cases h with
    | refl => rw [ane_nodes_length]; simp
  case Field idx =>
    cases h with
    | refl => rw [ane_nodes_length]; simp
  case Downcast symbol =>
    cases symbol with
    | none => simp at h
    | some s =>
        simp only [Option.some.injEq, Prod.mk.injEq] at h
        obtain ⟨h1, h2⟩ := h
        rw [← h1, ← h2, ane_nodes_length]
        simp
  case Index idx =>
    cases h with
    | refl => rw [ane_nodes_length, ane_nodes_length]; simp
  case ConstantIndex =>
    cases h with
    | refl => rw [ane_nodes_length]; simp
  case Subslice =>
    cases h with
    | refl => rw [ane_nodes_length]; simp
  case Unsupported => simp at h

theorem parse_place_go_ret_lt (elems : List PlaceElem) (g : Graph) (ret : Nat)
    (g' : Graph) (ret' : Nat) (hlt : ret < g.nodes.length)
    (h : parse_place_go g ret elems = some (g', ret')) :
    ret' < g'.nodes.length := by
  induction elems generalizing g ret with
  | nil =>
      simp only [parse_place_go, Option.some.injEq, Prod.mk.injEq] at h
      obtain ⟨h1, h2⟩ := h
      rw [← h1, ← h2]
      exact hlt
  | cons el rest ih =>
      simp only [parse_place_go] at h
      cases hs : parse_one_step g ret el with
      | none => rw [hs] at h; simp at h
      | some pr =>
          rw [hs] at h
          exact ih pr.1 pr.2 (parse_one_step_ret_lt g ret el pr.1 pr.2 hs) h

theorem parse_place_ret_lt (g : Graph) (p : Place) (g' : Graph) (ret : Nat)
    (hlt : p.lcl < g.nodes.length) (h : g.parse_place p = some (g', ret)) :
    ret < g'.nodes.length :=
  parse_place_go_ret_lt p.projection g p.lcl g' ret hlt h

theorem relNew_add_rvalue (g : Graph) (rv : Rvalue) (dst : Nat) (g' : Graph)
    (h : g.add_rvalue rv dst = some g') : RelNew g g' := by
  cases rv with
  | Use op =>
      simp only [Graph.add_rvalue] at h
      cases ho : g.add_operand op dst with
      | none => rw [ho] at h; simp at h
      | some g1 =>
          rw [ho] at h
          simp only [Option.map_some', Option.some.injEq] at h
          rw [← h]
          exact (relNew_add_operand g op dst g1 ho).trans_rel (relNew_set_node_op _ _ _)
  | Repeat op =>
      simp only [Graph.add_rvalue] at h
      cases ho : g.add_operand op dst with
      | none => rw [ho] at h; simp at h
      | some g1 =>
          rw [ho] at h
          simp only [Option.map_some', Option.some.injEq] at h
          rw [← h]
          exact (relNew_add_operand g op dst g1 ho).trans_rel (relNew_set_node_op _ _ _)
  | Ref bk p =>
      simp only [Graph.add_rvalue] at h
      cases hp : g.parse_place p with
      | none => rw [hp] at h; simp at h
      | some pr =>
          rw [hp] at h
          simp only [Option.some.injEq] at h
          rw [← h]
          exact ((relNew_parse_place g p pr.1 pr.2 hp).trans_rel
            (relNew_ane _ _ _ _)).trans_rel (relNew_set_node_op _ _ _)
  | Len p =>
      simp only [Graph.add_rvalue] at h
      cases hp : g.parse_place p with
      | none => rw [hp] at h; simp at h
      | some pr =>
          rw [hp] at h
          simp only [Option.some.injEq] at h
          rw [← h]
          exact ((relNew_parse_place g p pr.1 pr.2 hp).trans_rel
            (relNew_ane _ _ _ _)).trans_rel (relNew_set_node_op _ _ _)
  | Cast op =>
      simp only [Graph.add_rvalue] at h
      cases ho : g.add_operand op dst with
      | none => rw [ho] at h; simp at h
      | some g1 =>
          rw [ho] at h
          simp only [Option.map_some', Option.some.injEq] at h
          rw [← h]
          exact (relNew_add_operand g op dst g1 ho).trans_rel (relNew_set_node_op _ _ _)
  | BinaryOp o1 o2 =>
      simp only [Graph.add_rvalue] at h
      cases h1 : g.add_operand o1 dst with
      | none => rw [h1] at h; simp at h
      | some g1 =>
          rw [h1] at h
          simp only [] at h
          cases h2 : g1.add_operand o2 dst with
          | none => rw [h2] at h; simp at h
          | some g2 =>
              rw [h2] at h
              simp only [Option.some.injEq] at h
              rw [← h]
              exact ((relNew_add_operand g o1 dst g1 h1).trans_rel
                (relNew_add_operand g1 o2 dst g2 h2)).trans_rel
                (relNew_set_node_op _ _ _)
  | Aggregate k ops =>
      simp only [Graph.add_rvalue] at h
      cases ho : add_operands g ops dst with
      | none => rw [ho] at h; simp at h
      | some g1 =>
          rw [ho] at h
          have hrel := relNew_add_operands ops g dst g1 ho
          cases k <;> simp only [Option.some.injEq] at h
          case Array => rw [← h]; exact hrel.trans_rel (relNew_set_node_op _ _ _)
          case Tuple => rw [← h]; exact hrel.trans_rel (relNew_set_node_op _ _ _)
          case Adt d' => rw [← h]; exact hrel.trans_rel (relNew_set_node_op _ _ _)
          case Closure d' => rw [← h]; exact hrel.trans_rel (relNew_set_node_op _ _ _)
          case Unsupported => simp at h
  | UnaryOp op =>
      simp only [Graph.add_rvalue] at h
      cases ho : g.add_operand op dst with
      | none => rw [ho] at h; simp at h
      | some g1 =>
          rw [ho] at h
          simp only [Option.map_some', Option.some.injEq] at h
          rw [← h]
          exact (relNew_add_operand g op dst g1 ho).trans_rel (relNew_set_node_op _ _ _)
  | NullaryOp tyStr =>
      simp only [Graph.add_rvalue, Option.some.injEq] at h
      rw [← h]
      exact (relNew_ace _ _ _ _).trans_rel (relNew_set_node_op _ _ _)
  | ThreadLocalRef => simp [Graph.add_rvalue] at h
  | Discriminant p =>
      simp only [Graph.add_rvalue] at h
      cases hp : g.parse_place p with
      | none => rw [hp] at h; simp at h
      | some pr =>
          rw [hp] at h
          simp only [Option.some.injEq] at h
          rw [← h]
          exact ((relNew_parse_place g p pr.1 pr.2 hp).trans_rel
            (relNew_ane _ _ _ _)).trans_rel (relNew_set_node_op _ _ _)
  | ShallowInitBox op =>
      simp only [Graph.add_rvalue] at h
      cases ho : g.add_operand op dst with
      | none => rw [ho] at h; simp at h
      | some g1 =>
          rw [ho] at h
          simp only [Option.map_some', Option.some.injEq] at h
          rw [← h]
          exact (relNew_add_operand g op dst g1 ho).trans_rel (relNew_set_node_op _ _ _)
  | CopyForDeref p =>
      simp only [Graph.add_rvalue] at h
      cases hp : g.parse_place p with
      | none => rw [hp] at h; simp at h
      | some pr =>
          rw [hp] at h
          simp only [Option.some.injEq] at h
          rw [← h]
          exact ((relNew_parse_place g p pr.1 pr.2 hp).trans_rel
            (relNew_ane _ _ _ _)).trans_rel (relNew_set_node_op _ _ _)
  | RawPtr => simp [Graph.add_rvalue] at h

theorem bump_edge (g : Graph) (i : Nat) (e : Nat) :
    (g.bump_seq i).edge e = g.edge e := rfl

theorem set_node_span_edge (g : Graph) (i : Nat) (sp : Nat) (e : Nat) :
    (g.set_node_span i sp).edge e = g.edge e := rfl

/-- Common tail of both translations: after extending `g` to `gf` without
touching seq counters, the final `seq += 1` on the destination yields the
batch property. -/
theorem seq_batch_bump (g gf : Graph) (d : Nat) (hrel : RelNew g gf)
    (hd : d < gf.nodes.length) :
    (∀ e, g.edges.length ≤ e → e < (gf.bump_seq d).edges.length →
      ((gf.bump_seq d).edge e).dst = d → ((gf.bump_seq d).edge e).seq = seqOf g d) ∧
    seqOf (gf.bump_seq d) d = seqOf g d + 1 := by
  constructor
  · intro e he he' hdst
    rw [bump_edge] at hdst ⊢
    rw [bump_edges] at he'
    have := hrel.edges_new e he he'
    rw [hdst] at this
    exact this
  · rw [seqOf_bump_self gf d hd, hrel.seq_eq d]

/-- C3: for every assignment statement and every call terminator translated
into the graph, every edge created during that translation whose destination
is the resolved destination slot carries the seq value the destination had at
the start of the translation, and the destination's seq afterwards equals its
seq before plus exactly one. -/
theorem c3_batch_seq :
    (∀ (g : Graph) (stmt : Statement) (place : Place) (rv : Rvalue)
        (gmid g' : Graph) (d : Nat),
      stmt.kind = StatementKind.Assign place rv →
      place.lcl < g.nodes.length →
      g.parse_place place = some (gmid, d) →
      g.add_statm_to_graph stmt = some g' →
      (∀ e, g.edges.length ≤ e → e < g'.edges.length →
        (g'.edge e).dst = d → (g'.edge e).seq = seqOf g d) ∧
      seqOf g' d = seqOf g d + 1) ∧
    (∀ (g : Graph) (t : Terminator) (func : Operand) (args : List Operand)
        (destP : Place) (g' : Graph),
      t.kind = TerminatorKind.Call func args destP →
      destP.lcl < g.nodes.length →
      g.add_terminator_to_graph t = some g' →
      (∀ e, g.edges.length ≤ e → e < g'.edges.length →
        (g'.edge e).dst = destP.lcl →
        (g'.edge e).seq = seqOf g destP.lcl) ∧
      seqOf g' destP.lcl = seqOf g destP.lcl + 1) := by
  constructor
  · intro g stmt place rv gmid g' d hkind hlt hparse hadd
    simp only [Graph.add_statm_to_graph, hkind] at hadd
    rw [hparse] at hadd
    simp only [] at hadd
    cases hrv : (gmid.set_node_span d stmt.span).add_rvalue rv d with
    | none => rw [hrv] at hadd; simp at hadd
    | some g3 =>
        rw [hrv] at hadd
        simp only [Option.some.injEq] at hadd
        have hrel : RelNew g g3 :=
          ((relNew_parse_place g place gmid d hparse).trans_rel
            (relNew_set_node_span gmid d stmt.span)).trans_rel
            (relNew_add_rvalue _ rv d g3 hrv)
        have hd3 : d < g3.nodes.length := by
          have h1 : d < gmid.nodes.length := parse_place_ret_lt g place gmid d hlt hparse
          have h2 : (gmid.set_node_span d stmt.span).nodes.length ≤ g3.nodes.length :=
            (relNew_add_rvalue _ rv d g3 hrv).nodes_le
          rw [set_node_span_nodes_length] at h2
          exact Nat.lt_of_lt_of_le h1 h2
        rw [← hadd]
        exact seq_batch_bump g g3 d hrel hd3
  · intro g t func args destP g' hkind hlt hadd
    simp only [Graph.add_terminator_to_graph, hkind] at hadd
    cases func with
    | Constant c =>
        cases c with
        | Val s ty =>
            cases ty with
            | FnDef did =>
                simp only [] at hadd
                cases ha : add_operands g args destP.lcl with
                | none => rw [ha] at hadd; simp at hadd
                | some ga =>
                    rw [ha] at hadd
                    simp only [Option.map_some', Option.some.injEq] at hadd
                    have hrel : RelNew g
                        (((ga.set_node_op destP.lcl (NodeOp.Call did))).set_node_span
                          destP.lcl t.span) :=
                      ((relNew_add_operands args g destP.lcl ga ha).trans_rel
                        (relNew_set_node_op ga destP.lcl (NodeOp.Call did))).trans_rel
                        (relNew_set_node_span _ destP.lcl t.span)
                    have hdn : destP.lcl <
                        (((ga.set_node_op destP.lcl (NodeOp.Call did))).set_node_span
                          destP.lcl t.span).nodes.length :=
                      Nat.lt_of_lt_of_le hlt hrel.nodes_le
                    rw [← hadd]
                    exact seq_batch_bump g _ destP.lcl hrel hdn
            | Other =>
                simp only [Option.map_some', Option.some.injEq] at hadd
                have hrel : RelNew g (g.set_node_span destP.lcl t.span) :=
                  relNew_set_node_span g destP.lcl t.span
                have hdn : destP.lcl < (g.set_node_span destP.lcl t.span).nodes.length := by
                  rw [set_node_span_nodes_length]; exact hlt
                rw [← hadd]
                exact seq_batch_bump g _ destP.lcl hrel hdn
        | Other s =>
            simp only [Option.map_some', Option.some.injEq] at hadd
            have hrel : RelNew g (g.set_node_span destP.lcl t.span) :=
              relNew_set_node_span g destP.lcl t.span
            have hdn : destP.lcl < (g.set_node_span destP.lcl t.span).nodes.length := by
              rw [set_node_span_nodes_length]; exact hlt
            rw [← hadd]
            exact seq_batch_bump g _ destP.lcl hrel hdn
    | Move p =>
        simp only [] at hadd
        cases hf : g.add_operand (Operand.Move p) destP.lcl with
        | none => rw [hf] at hadd; simp at hadd
        | some g1 =>
            rw [hf] at hadd
            simp only [] at hadd
            cases ha : add_operands g1 args destP.lcl with
            | none => rw [ha] at hadd; simp at hadd
            | some ga =>
                rw [ha] at hadd
                simp only [Option.map_some', Option.some.injEq] at hadd
                have hrel : RelNew g
                    ((ga.set_node_op destP.lcl NodeOp.CallOperand).set_node_span
                      destP.lcl t.span) :=
                  (((relNew_add_operand g (Operand.Move p) destP.lcl g1 hf).trans_rel
                    (relNew_add_operands args g1 destP.lcl ga ha)).trans_rel
                    (relNew_set_node_op ga destP.lcl NodeOp.CallOperand)).trans_rel
                    (relNew_set_node_span _ destP.lcl t.span)
                have hdn : destP.lcl <
                    ((ga.set_node_op destP.lcl NodeOp.CallOperand).set_node_span
                      destP.lcl t.span).nodes.length :=
                  Nat.lt_of_lt_of_le hlt hrel.nodes_le
                rw [← hadd]
                exact seq_batch_bump g _ destP.lcl hrel hdn
    | Copy p => simp at hadd

/-- Witness for C3: translating `_2 = Use(copy _1)` on a fresh three-slot
graph stamps the single new edge with seq 0 and leaves slot 2 at seq 1, and
translating the direct call `_0 = f(copy _1)` stamps its edge with seq 0 and
leaves slot 0 at seq 1. -/
theorem c3_batch_seq_witness :
    ((exGq.edge 0).seq = seqOf exG3 2 ∧ seqOf exGq 2 = seqOf exG3 2 + 1) ∧
    ((exGterm.edge 0).seq = seqOf exG3 0 ∧ seqOf exGterm 0 = seqOf exG3 0 + 1) := by
  constructor
  · have h := c3_batch_seq.1 exG3 exStmtUse
      { lcl := 2, projection := [] }
      (Rvalue.Use (Operand.Copy { lcl := 1, projection := [] }))
      exG3 exGq 2 rfl (by decide) rfl rfl
    exact ⟨h.1 0 (by decide) (by decide) (by decide), h.2⟩
  · have h := c3_batch_seq.2 exG3 exTermCall
      (Operand.Constant (MirConst.Val "f" (TyKind.FnDef 7)))
      [Operand.Copy { lcl := 1, projection := [] }]
      { lcl := 0, projection := [] } exGterm rfl (by decide) rfl
    exact ⟨h.1 0 (by decide) (by decide) (by decide), h.2⟩

/-- C9: translating a statement that is not an assignment, or a terminator
that is not a call, returns the graph completely unchanged. -/
theorem c9_frame_non_assign_non_call :
    (∀ (g : Graph) (stmt : Statement), stmt.kind = StatementKind.OtherStmt →
      g.add_statm_to_graph stmt = some g) ∧
    (∀ (g : Graph) (t : Terminator), t.kind = TerminatorKind.OtherTerm →
      g.add_terminator_to_graph t = some g) := by
  constructor
  · intro g stmt hk
    simp [Graph.add_statm_to_graph, hk]
  · intro g t hk
    simp [Graph.add_terminator_to_graph, hk]

/-- Witness for C9 at concrete inputs. -/
theorem c9_frame_non_assign_non_call_witness :
    exG3.add_statm_to_graph exStmtOther = some exG3 ∧
    exG3.add_terminator_to_graph exTermOther = some exG3 :=
  ⟨c9_frame_non_assign_non_call.1 exG3 exStmtOther rfl,
   c9_frame_non_assign_non_call.2 exG3 exTermOther rfl⟩

theorem node_ace_new (g : Graph) (s : String) (d : Nat) (op : EdgeOp)
    (hd : d ≠ g.nodes.length) :
    (g.add_const_edge s d op).1.node g.nodes.length =
      { GraphNode.new with op := NodeOp.Const s } := by
  unfold Graph.node
  rw [ace_fst_nodes, listModify_getD_ne _ _ _ _ _ (fun h => hd h.symm),
    getD_append_len]

theorem node_ace_op_old (g : Graph) (s : String) (d : Nat) (op : EdgeOp)
    (n : Nat) (hn : n < g.nodes.length) :
    ((g.add_const_edge s d op).1.node n).op = (g.node n).op := by
  unfold Graph.node
  rw [ace_fst_nodes]
  by_cases hd : n = d
  · subst hd
    rw [listModify_getD_self _ _ _ _ (by simp; omega), getD_append_left _ _ _ _ hn]
  · rw [listModify_getD_ne _ _ _ _ _ hd, getD_append_left _ _ _ _ hn]

/-- C10: every constant operand resolved through `add_operand` creates a
brand-new constant node tagged with the literal's textual form plus one
constant-tagged edge into the destination, and two constant operands with the
same textual form still produce two distinct constant nodes. -/
theorem c10_const_nodes_fresh :
    (∀ (g : Graph) (c : MirConst) (d : Nat) (g' : Graph),
      d < g.nodes.length →
      g.add_operand (Operand.Constant c) d = some g' →
      g'.nodes.length = g.nodes.length + 1 ∧
      (g'.node g.nodes.length).op = NodeOp.Const c.toStr ∧
      (g'.node g.nodes.length).out_edges = [] ∧
      (g'.node g.nodes.length).in_edges = [] ∧
      g'.edges.length = g.edges.length + 1 ∧
      g'.edge g.edges.length =
        { src := g.nodes.length, dst := d, op := EdgeOp.Const,
          seq := seqOf g d }) ∧
    (∀ (g : Graph) (c : MirConst) (d d' : Nat) (g1 g2 : Graph),
      d < g.nodes.length → d' < g1.nodes.length →
      g.add_operand (Operand.Constant c) d = some g1 →
      g1.add_operand (Operand.Constant c) d' = some g2 →
      g2.nodes.length = g.nodes.length + 2 ∧
      (g2.node g.nodes.length).op = NodeOp.Const c.toStr ∧
      (g2.node (g.nodes.length + 1)).op = NodeOp.Const c.toStr) := by
  constructor
  · intro g c d g' hd h
    simp only [Graph.add_operand, Option.some.injEq] at h
    rw [← h]
    have hne : d ≠ g.nodes.length := by omega
    refine ⟨ace_nodes_length g c.toStr d EdgeOp.Const, ?_, ?_, ?_,
      ace_edges_length g c.toStr d EdgeOp.Const, edge_ace_new g c.toStr d EdgeOp.Const⟩
    · rw [node_ace_new g c.toStr d EdgeOp.Const hne]
    · rw [node_ace_new g c.toStr d EdgeOp.Const hne]
      rfl
    · rw [node_ace_new g c.toStr d EdgeOp.Const hne]
      rfl
  · intro g c d d' g1 g2 hd hd' h1 h2
    simp only [Graph.add_operand, Option.some.injEq] at h1 h2
    have hlen1 : g1.nodes.length = g.nodes.length + 1 := by
      rw [← h1]; exact ace_nodes_length g c.toStr d EdgeOp.Const
    refine ⟨?_, ?_, ?_⟩
    · rw [← h2, ace_nodes_length, hlen1]
    · rw [← h2, node_ace_op_old g1 c.toStr d' EdgeOp.Const _ (by omega)]
      rw [← h1]
      have hne : d ≠ g.nodes.length := by omega
      rw [node_ace_new g c.toStr d EdgeOp.Const hne]
    · rw [← h2]
      have : g.nodes.length + 1 = g1.nodes.length := hlen1.symm
      rw [this]
      have hne' : d' ≠ g1.nodes.length := by omega
      rw [node_ace_new g1 c.toStr d' EdgeOp.Const hne']

/-- Witness for C10: resolving the constant "42" twice into slot 0 of a fresh
three-slot graph produces two distinct constant nodes at indices 3 and 4. -/
theorem c10_const_nodes_fresh_witness :
    ((((exG3.add_operand (Operand.Constant (MirConst.Other "42")) 0).getD exG3).add_operand
        (Operand.Constant (MirConst.Other "42")) 0).getD exG3).nodes.length = 5 ∧
    (((((exG3.add_operand (Operand.Constant (MirConst.Other "42")) 0).getD exG3).add_operand
        (Operand.Constant (MirConst.Other "42")) 0).getD exG3).node 3).op =
      NodeOp.Const "42" ∧
    (((((exG3.add_operand (Operand.Constant (MirConst.Other "42")) 0).getD exG3).add_operand
        (Operand.Constant (MirConst.Other "42")) 0).getD exG3).node 4).op =
      NodeOp.Const "42" := by
  have h := c10_const_nodes_fresh.2 exG3 (MirConst.Other "42") 0 0
    ((exG3.add_operand (Operand.Constant (MirConst.Other "42")) 0).getD exG3)
    ((((exG3.add_operand (Operand.Constant (MirConst.Other "42")) 0).getD exG3).add_operand
        (Operand.Constant (MirConst.Other "42")) 0).getD exG3)
    (by decide) (by decide) rfl rfl
  exact ⟨h.1, h.2.1, h.2.2⟩

theorem node_set_op_self (g : Graph) (i : Nat) (op : NodeOp)
    (h : i < g.nodes.length) : ((g.set_node_op i op).node i).op = op := by
  unfold Graph.set_node_op Graph.node
  simp only []
  rw [listModify_getD_self _ _ _ _ h]

theorem node_op_set_span (g : Graph) (j : Nat) (sp : Nat) (i : Nat) :
    ((g.set_node_span j sp).node i).op = (g.node i).op := by
  unfold Graph.set_node_span Graph.node
  simp only []
  by_cases hij : i = j
  · subst hij
    by_cases h : i < g.nodes.length
    · rw [listModify_getD_self _ _ _ _ h]
    · push_neg at h
      rw [listModify_getD_oob _ _ _ h]
  · rw [listModify_getD_ne _ _ _ _ _ hij]

theorem node_op_bump (g : Graph) (j : Nat) (i : Nat) :
    ((g.bump_seq j).node i).op = (g.node i).op := by
  unfold Graph.bump_seq Graph.node
  simp only []
  by_cases hij : i = j
  · subst hij
    by_cases h : i < g.nodes.length
    · rw [listModify_getD_self _ _ _ _ h]
    · push_neg at h
      rw [listModify_getD_oob _ _ _ h]
  · rw [listModify_getD_ne _ _ _ _ _ hij]

/-- Counterexample for C4: a call terminator whose target is a constant that
is not a function-definition value does NOT abort — the translation returns
a graph (with the destination's span and seq updated but no edges and no tag),
refuting "any other call-target shape is an unsupported-construct condition". -/
theorem c4_counterexample :
    exG3.add_terminator_to_graph exTermSilent ≠ none ∧
    ((exG3.add_terminator_to_graph exTermSilent).getD exG3).edges = [] ∧
    (((exG3.add_terminator_to_graph exTermSilent).getD exG3).node 0).op = NodeOp.Nop ∧
    seqOf ((exG3.add_terminator_to_graph exTermSilent).getD exG3) 0 = 1 := by
  refine ⟨by decide, rfl, rfl, rfl⟩


theorem parse_one_step_spec (g : Graph) (src : Nat) (el : PlaceElem)
    (g' : Graph) (ret : Nat) (h : parse_one_step g src el = some (g', ret)) :
    ret = g.nodes.length ∧ g'.nodes.length = g.nodes.length + 1 ∧
    g.edges.length < g'.edges.length ∧
    (g'.edge g.edges.length).dst = g.nodes.length ∧
    (g'.edge g.edges.length).src = src ∧
    (∀ e, e < g.edges.length → g'.edge e = g.edge e) := by
  have hpg : ({ g with nodes := g.nodes ++ [GraphNode.new] } : Graph).edges.length
      = g.edges.length := rfl
  have hpn : ({ g with nodes := g.nodes ++ [GraphNode.new] } : Graph).nodes.length
      = g.nodes.length + 1 := by simp
  cases el <;> simp only [parse_one_step] at h
  case Downcast symbol =>
    cases symbol with
    | none => simp at h
    | some s =>
        simp only [Option.some.injEq, Prod.mk.injEq] at h
        obtain ⟨h1, h2⟩ := h
        subst h1 h2
        refine ⟨rfl, by rw [ane_nodes_length, hpn],
          by rw [ane_edges_length, hpg]; omega,
          ?_, ?_, fun e he => edge_ane_old _ _ _ _ e he⟩
        · rw [show g.edges.length =
            ({ g with nodes := g.nodes ++ [GraphNode.new] } : Graph).edges.length from rfl,
            edge_ane_new]
        · rw [show g.edges.length =
            ({ g with nodes := g.nodes ++ [GraphNode.new] } : Graph).edges.length from rfl,
            edge_ane_new]
  case Unsupported => simp at h
  case Index idx =>
    cases h with
    | refl =>
        refine ⟨rfl, by rw [ane_nodes_length, ane_nodes_length, hpn], ?_, ?_, ?_, ?_⟩
        · rw [ane_edges_length, ane_edges_length, hpg]; omega
        · rw [edge_ane_old _ _ _ _ _ (by rw [ane_edges_length, hpg]; omega)]
          rw [show g.edges.length =
            ({ g with nodes := g.nodes ++ [GraphNode.new] } : Graph).edges.length from rfl,
            edge_ane_new]
        · rw [edge_ane_old _ _ _ _ _ (by rw [ane_edges_length, hpg]; omega)]
          rw [show g.edges.length =
            ({ g with nodes := g.nodes ++ [GraphNode.new] } : Graph).edges.length from rfl,
            edge_ane_new]
        · intro e he
          rw [edge_ane_old _ _ _ _ _ (by rw [ane_edges_length, hpg]; omega)]
          exact edge_ane_old _ _ _ _ e he
  all_goals
    cases h with
    | refl =>
        refine ⟨rfl, by rw [ane_nodes_length, hpn],
          by rw [ane_edges_length, hpg]; omega,
          ?_, ?_, fun e he => edge_ane_old _ _ _ _ e he⟩
        · rw [show g.edges.length =
            ({ g with nodes := g.nodes ++ [GraphNode.new] } : Graph).edges.length from rfl,
            edge_ane_new]
        · rw [show g.edges.length =
            ({ g with nodes := g.nodes ++ [GraphNode.new] } : Graph).edges.length from rfl,
            edge_ane_new]

theorem parse_place_go_spec (elems : List PlaceElem) (g : Graph) (ret : Nat)
    (g' : Graph) (ret' : Nat)
    (h : parse_place_go g ret elems = some (g', ret')) :
    g'.nodes.length = g.nodes.length + elems.length ∧
    (elems = [] → g' = g ∧ ret' = ret) ∧
    (elems ≠ [] → ret' = g.nodes.length + elems.length - 1) ∧
    (∀ k, k < elems.length → ∃ e, e < g'.edges.length ∧
      (g'.edge e).dst = g.nodes.length + k ∧
      (g'.edge e).src = (if k = 0 then ret else g.nodes.length + k - 1)) := by
  induction elems generalizing g ret with
  | nil =>
      simp only [parse_place_go, Option.some.injEq, Prod.mk.injEq] at h
      obtain ⟨h1, h2⟩ := h
      subst h1 h2
      exact ⟨by simp, fun _ => ⟨rfl, rfl⟩, fun hne => absurd rfl hne,
        fun k hk => by simp at hk⟩
  | cons el rest ih =>
      simp only [parse_place_go] at h
      cases hs : parse_one_step g ret el with
      | none => rw [hs] at h; simp at h
      | some pr =>
          rw [hs] at h
          obtain ⟨hr1, hn1, he1, hd1, hsrc1, hold1⟩ :=
            parse_one_step_spec g ret el pr.1 pr.2 hs
          obtain ⟨ihn, ihnil, ihlast, ihchain⟩ := ih pr.1 pr.2 h
          have hrel : RelNew pr.1 g' := relNew_parse_place_go rest pr.1 pr.2 g' ret' h
          refine ⟨by simp only [ihn, hn1, List.length_cons]; omega,
            fun hc => by simp at hc, ?_, ?_⟩
          · intro _
            cases hrest : rest with
            | nil =>
                subst hrest
                obtain ⟨hg, hret⟩ := ihnil rfl
                subst hg
                rw [hret, hr1]
                simp
            | cons r2 rest2 =>
                have := ihlast (by simp [hrest])
                rw [this, hn1]
                simp [hrest]
                omega
          · intro k hk
            cases k with
            | zero =>
                refine ⟨g.edges.length, ?_, ?_, ?_⟩
                · exact Nat.lt_of_lt_of_le he1 hrel.edges_le
                · rw [hrel.edges_old g.edges.length he1]
                  simpa using hd1
                · rw [hrel.edges_old g.edges.length he1]
                  simpa using hsrc1
            | succ k' =>
                obtain ⟨e, hee, hed, hes⟩ := ihchain k' (by simpa using hk)
                refine ⟨e, hee, by rw [hed, hn1]; omega, ?_⟩
                rw [hes]
                by_cases hk0 : k' = 0
                · subst hk0
                  simp [hr1, hn1]
                · rw [if_neg hk0, if_neg (by omega : ¬ k' + 1 = 0), hn1]
                  omega

/-- C7: resolving a memory-location expression with N projection steps grows
the node set by exactly N chained synthetic nodes (never reusing an existing
node except the initial slot), returns the last new node (the base slot when
N = 0), and an index-by-value step creates two edges into its fresh node, one
from the indexed object and one from the index value, both tagged `Index`. -/
theorem c7_parse_place :
    (∀ (g : Graph) (b : Nat) (elems : List PlaceElem) (g' : Graph) (ret : Nat),
      g.parse_place { lcl := b, projection := elems } = some (g', ret) →
      g'.nodes.length = g.nodes.length + elems.length ∧
      (elems = [] → g' = g ∧ ret = b) ∧
      (elems ≠ [] → ret = g.nodes.length + elems.length - 1) ∧
      (∀ k, k < elems.length → ∃ e, e < g'.edges.length ∧
        (g'.edge e).dst = g.nodes.length + k ∧
        (g'.edge e).src = (if k = 0 then b else g.nodes.length + k - 1))) ∧
    (∀ (g : Graph) (b i : Nat) (g' : Graph) (ret : Nat),
      g.parse_place { lcl := b, projection := [PlaceElem.Index i] } =
        some (g', ret) →
      ret = g.nodes.length ∧
      g'.edges = g.edges ++
        [{ src := b, dst := ret, op := EdgeOp.Index, seq := 0 },
         { src := i, dst := ret, op := EdgeOp.Index, seq := 0 }]) := by
  constructor
  · intro g b elems g' ret h
    exact parse_place_go_spec elems g b g' ret h
  · intro g b i g' ret h
    simp only [Graph.parse_place, parse_place_go, parse_one_step,
      Option.some.injEq, Prod.mk.injEq] at h
    obtain ⟨hg, hret⟩ := h
    have hseq0 : (({ g with nodes := g.nodes ++ [GraphNode.new] } : Graph).node
        g.nodes.length).seq = 0 := by
      unfold Graph.node
      simp only []
      rw [getD_append_len]
      rfl
    have hseq1 : ((({ g with nodes := g.nodes ++ [GraphNode.new] } : Graph).add_node_edge
        b g.nodes.length EdgeOp.Index).1.node g.nodes.length).seq = 0 := by
      have := seqOf_ane ({ g with nodes := g.nodes ++ [GraphNode.new] } : Graph)
        b g.nodes.length EdgeOp.Index g.nodes.length
      unfold seqOf at this
      rw [this]
      exact hseq0
    constructor
    · exact hret.symm
    · rw [← hg, ← hret]
      rw [ane_fst_edges, ane_fst_edges]
      rw [show (({ g with nodes := g.nodes ++ [GraphNode.new] } : Graph)).edges
        = g.edges from rfl]
      rw [hseq0, hseq1]
      rw [List.append_assoc]
      rfl

/-- Witness for C7: resolving `_1[_2]` on a fresh four-slot graph adds one
node and two `Index`-tagged edges into it. -/
theorem c7_parse_place_witness :
    ((exG4.parse_place { lcl := 1, projection := [PlaceElem.Index 2] }).getD
      (exG4, 0)).1.nodes.length = exG4.nodes.length + 1 ∧
    ((exG4.parse_place { lcl := 1, projection := [PlaceElem.Index 2] }).getD
      (exG4, 0)).2 = exG4.nodes.length ∧
    ((exG4.parse_place { lcl := 1, projection := [PlaceElem.Index 2] }).getD
      (exG4, 0)).1.edges = exG4.edges ++
      [{ src := 1,
         dst := ((exG4.parse_place { lcl := 1, projection := [PlaceElem.Index 2] }).getD
           (exG4, 0)).2, op := EdgeOp.Index, seq := 0 },
       { src := 2,
         dst := ((exG4.parse_place { lcl := 1, projection := [PlaceElem.Index 2] }).getD
           (exG4, 0)).2, op := EdgeOp.Index, seq := 0 }] := by
  have h1 := c7_parse_place.1 exG4 1 [PlaceElem.Index 2]
    ((exG4.parse_place { lcl := 1, projection := [PlaceElem.Index 2] }).getD
      (exG4, 0)).1
    ((exG4.parse_place { lcl := 1, projection := [PlaceElem.Index 2] }).getD
      (exG4, 0)).2 rfl
  have h2 := c7_parse_place.2 exG4 1 2
    ((exG4.parse_place { lcl := 1, projection := [PlaceElem.Index 2] }).getD
      (exG4, 0)).1
    ((exG4.parse_place { lcl := 1, projection := [PlaceElem.Index 2] }).getD
      (exG4, 0)).2 rfl
  exact ⟨by rw [h1.1]; rfl, h2.1, h2.2⟩

theorem dfsEdges_true_eq_all {σ : Type} (g : Graph)
    (ev : Graph → Nat → DFSStatus) (recur : Nat → σ → Option (σ × DFSStatus))
    (l : List Nat) (us : Bool) (s : σ) :
    dfsEdges g ev true recur l us s =
      (dfsEdgesAll g ev recur l us s).map (fun s' => (s', DFSStatus.Continue)) := by
  induction l generalizing s with
  | nil => rfl
  | cons e rest ih =>
      simp only [dfsEdges, dfsEdgesAll]
      cases ev g e with
      | Stop => exact ih s
      | Continue =>
          simp only []
          cases recur (if us then (g.edge e).src else (g.edge e).dst) s with
          | none => rfl
          | some pr =>
              cases pr with
              | mk s2 r =>
                  cases r with
                  | Continue => exact ih s2
                  | Stop => simp only [if_pos rfl]; exact ih s2


/-- C5: a successful `param_return_deps` returns exactly `argc + 1` booleans,
entry `i` being `is_connected(slot_i, slot_0)`, and entry 0 is true for every
graph because the search includes (and immediately matches) the start node. -/
theorem c5_param_return_deps :
    ∀ (g : Graph) (fuel : Nat) (deps : List Bool),
      g.param_return_deps fuel = some deps →
      deps.length = g.argc + 1 ∧
      (∀ i, i < g.argc + 1 → g.is_connected fuel i 0 = some (deps.getD i false)) ∧
      deps.getD 0 false = true := by
  intro g fuel deps h
  unfold Graph.param_return_deps at h
  have char := optMap_some_char (fun i => g.is_connected fuel i 0)
    (List.range (g.argc + 1)) deps h 0 false
  have hlen : deps.length = g.argc + 1 := by
    rw [char.1, List.length_range]
  have helem : ∀ i, i < g.argc + 1 →
      g.is_connected fuel i 0 = some (deps.getD i false) := by
    intro i hi
    have := char.2 i (by rwa [List.length_range])
    rwa [getD_range _ _ hi] at this
  refine ⟨hlen, helem, ?_⟩
  have h0 := helem 0 (by omega)
  cases fuel with
  | zero =>
      simp [Graph.is_connected, Graph.dfs] at h0
  | succ f =>
      have hconn : g.is_connected (f + 1) 0 0 = some true := by
        simp [Graph.is_connected, Graph.dfs, connect_node_operator]
      rw [hconn] at h0
      exact (Option.some.injEq _ _ ▸ h0.symm)

/-- Witness for C5: a fresh one-parameter graph yields `[true, false]`. -/
theorem c5_param_return_deps_witness :
    ([true, false] : List Bool).length = exG3.argc + 1 ∧
    exG3.is_connected 2 1 0 = some (([true, false] : List Bool).getD 1 false) ∧
    ([true, false] : List Bool).getD 0 false = true := by
  have h := c5_param_return_deps exG3 2 [true, false] rfl
  exact ⟨h.1, h.2.1 1 (by decide), h.2.2⟩

theorem find_equivalent_operator_mono (g : Graph) (s : Finset Nat) (now : Nat) :
    s ⊆ (find_equivalent_operator g s now).1 := by
  unfold find_equivalent_operator
  by_cases h1 : now ∈ s
  · simp [h1]
  · by_cases h2 : equivAdmits (g.node now).op
    · simp [h1, h2]
    · simp [h1, h2]

theorem dfsEdges_subset (g : Graph) (ev : Graph → Nat → DFSStatus) (ta : Bool)
    (recur : Nat → Finset Nat → Option (Finset Nat × DFSStatus))
    (hrec : ∀ l s s' r, recur l s = some (s', r) → s ⊆ s') :
    ∀ (l : List Nat) (us : Bool) (s s' : Finset Nat) (r : DFSStatus),
      dfsEdges g ev ta recur l us s = some (s', r) → s ⊆ s' := by
  intro l
  induction l with
  | nil =>
      intro us s s' r h
      simp only [dfsEdges, Option.some.injEq, Prod.mk.injEq] at h
      rw [← h.1]
  | cons e rest ih =>
      intro us s s' r h
      simp only [dfsEdges] at h
      cases hev : ev g e with
      | Stop =>
          rw [hev] at h
          exact ih us s s' r h
      | Continue =>
          rw [hev] at h
          simp only [] at h
          cases hr : recur (if us then (g.edge e).src else (g.edge e).dst) s with
          | none => rw [hr] at h; simp at h
          | some pr =>
              rw [hr] at h
              have hsub1 : s ⊆ pr.1 := hrec _ _ _ _ hr
              cases pr with
              | mk s2 r2 =>
                  cases r2 with
                  | Continue =>
                      simp only [] at h
                      exact hsub1.trans (ih us s2 s' r h)
                  | Stop =>
                      simp only [] at h
                      cases ta with
                      | true =>
                          simp only [if_pos rfl] at h
                          exact hsub1.trans (ih us s2 s' r h)
                      | false =>
                          rw [if_neg (by simp)] at h
                          simp only [Option.some.injEq, Prod.mk.injEq] at h
                          rw [← h.1]
                          exact hsub1

theorem dfs_equiv_subset (g : Graph) (dir : Direction) (ta : Bool) :
    ∀ (fuel now : Nat) (s s' : Finset Nat) (r : DFSStatus),
      g.dfs dir find_equivalent_operator Graph.equivalent_edge_validator ta
        fuel now s = some (s', r) → s ⊆ s' := by
  intro fuel
  induction fuel with
  | zero => intro now s s' r h; simp [Graph.dfs] at h
  | succ f ih =>
      intro now s s' r h
      simp only [Graph.dfs] at h
      cases hno : find_equivalent_operator g s now with
      | mk s1 r1 =>
          have hs1 : s ⊆ s1 := by
            have := find_equivalent_operator_mono g s now
            rwa [hno] at this
          rw [hno] at h
          cases r1 with
          | Stop =>
              simp only [Option.some.injEq, Prod.mk.injEq] at h
              rw [← h.1]
              exact hs1
          | Continue =>
              simp only [] at h
              cases dir with
              | Upside =>
                  exact hs1.trans (dfsEdges_subset g _ ta _ ih _ _ _ _ _ h)
              | Downside =>
                  exact hs1.trans (dfsEdges_subset g _ ta _ ih _ _ _ _ _ h)
              | Both =>
                  cases hfst : dfsEdges g Graph.equivalent_edge_validator ta
                      (fun l st => g.dfs Direction.Both find_equivalent_operator
                        Graph.equivalent_edge_validator ta f l st)
                      ((g.node now).in_edges) true s1 with
                  | none => rw [hfst] at h; simp at h
                  | some pr =>
                      rw [hfst] at h
                      have hsub2 : s1 ⊆ pr.1 :=
                        dfsEdges_subset g _ ta _ ih _ _ _ _ _ hfst
                      cases pr with
                      | mk s2 r2 =>
                          cases r2 with
                          | Stop =>
                              simp only [Option.some.injEq, Prod.mk.injEq] at h
                              rw [← h.1]
                              exact hs1.trans hsub2
                          | Continue =>
                              simp only [] at h
                              exact (hs1.trans hsub2).trans
                                (dfsEdges_subset g _ ta _ ih _ _ _ _ _ h)

/-- Counterexample for C2: starting `collect_equivalent_locals` from a slot
tagged with a computation (checked binary op), the root is the start slot
itself, yet the returned set is empty — it does not contain the root. -/
theorem c2_counterexample :
    exGbin.find_equiv_root 5 0 = some 0 ∧
    exGbin.collect_equivalent_locals 5 0 = some ∅ ∧
    (0 : Nat) ∉ (∅ : Finset Nat) := by
  exact ⟨rfl, rfl, by simp⟩

/-- C2 (amended): a successful `collect_equivalent_locals` contains the root
precisely when the root satisfies the node predicate (tag no-op, use or
reference); when the root fails the predicate — which happens exactly when
the start slot itself fails it — the returned set is empty. -/
theorem c2_collect_root :
    ∀ (g : Graph) (fuel start root : Nat) (s : Finset Nat),
      g.find_equiv_root fuel start = some root →
      g.collect_equivalent_locals fuel start = some s →
      (equivAdmits (g.node root).op = true → root ∈ s) ∧
      (equivAdmits (g.node root).op = false → s = ∅) := by
  intro g fuel start root s hroot hcoll
  unfold Graph.collect_equivalent_locals at hcoll
  rw [hroot] at hcoll
  simp only [] at hcoll
  cases hdfs : g.dfs Direction.Downside find_equivalent_operator
      Graph.equivalent_edge_validator true fuel root ∅ with
  | none => rw [hdfs] at hcoll; simp at hcoll
  | some pr =>
      rw [hdfs] at hcoll
      simp only [Option.map_some', Option.some.injEq] at hcoll
      cases fuel with
      | zero => simp [Graph.dfs] at hdfs
      | succ f =>
          simp only [Graph.dfs] at hdfs
          constructor
          · intro hadm
            have hop : find_equivalent_operator g ∅ root =
                (insert root ∅, DFSStatus.Continue) := by
              unfold find_equivalent_operator
              simp [hadm]
            rw [hop] at hdfs
            simp only [] at hdfs
            have hsub : insert root ∅ ⊆ pr.1 :=
              dfsEdges_subset g _ true _
                (fun l st st' r h => dfs_equiv_subset g Direction.Downside true f l st st' r h)
                _ _ _ _ _ hdfs
            rw [← hcoll]
            exact hsub (Finset.mem_insert_self root ∅)
          · intro hadm
            have hop : find_equivalent_operator g ∅ root =
                (∅, DFSStatus.Stop) := by
              unfold find_equivalent_operator
              simp [hadm]
            rw [hop] at hdfs
            simp only [Option.some.injEq] at hdfs
            rw [← hcoll, ← hdfs]

/-- Witness for C2 (amended): on the copy-chain graph the root (slot 1, a
no-op parameter) is in the returned set; on the computation-tagged graph the
returned set is empty. -/
theorem c2_collect_root_witness :
    1 ∈ ((exGq.collect_equivalent_locals 2 2).getD ∅) ∧
    ((exGbin.collect_equivalent_locals 5 0).getD {99}) = ∅ := by
  constructor
  · exact (c2_collect_root exGq 2 2 1 ((exGq.collect_equivalent_locals 2 2).getD ∅)
      rfl rfl).1 rfl
  · exact (c2_collect_root exGbin 5 0 0 ((exGbin.collect_equivalent_locals 5 0).getD {99})
      rfl rfl).2 rfl

/-- C6: in a graph where `p` is a no-op (parameter) slot and `q` is assigned
as a plain use (copy) of `p`, with no other statements touching either,
`collect_equivalent_locals q` returns exactly the two-element set `{p, q}`. -/
theorem c6_equiv_pair :
    ∀ (d sp argc n p q sp2 k : Nat) (g1 : Graph),
      p < n → q < n → p ≠ q →
      (Graph.new d sp argc n).add_statm_to_graph
        { kind := StatementKind.Assign { lcl := q, projection := [] }
            (Rvalue.Use (Operand.Copy { lcl := p, projection := [] })),
          span := sp2 } = some g1 →
      g1.collect_equivalent_locals (k + 2) q = some {p, q} := by
  intro d sp argc n p q sp2 k g1 hp hq hpq hadd
  have hqp : q ≠ p := fun h => hpq h.symm
  simp only [Graph.add_statm_to_graph, Graph.parse_place, parse_place_go,
    Graph.add_rvalue, Graph.add_operand, Option.map_some', Option.some.injEq] at hadd
  set g0 := Graph.new d sp argc n with hg0
  -- lengths of all intermediate node lists are n
  have hlen0 : g0.nodes.length = n := by simp [hg0, Graph.new]
  -- the single edge of the built graph
  have hedges : g1.edges = [{ src := p, dst := q, op := EdgeOp.Copy, seq := 0 }] := by
    rw [← hadd]
    rw [bump_edges, set_node_op_edges, ane_fst_edges]
    have hseq : ((g0.set_node_span q sp2).node q).seq = 0 := by
      unfold Graph.node Graph.set_node_span
      simp only [hg0, Graph.new]
      rw [listModify_getD_self _ _ _ _ (by simp; omega)]
      rw [getD_replicate]
      simp [hq, GraphNode.new]
    rw [hseq]
    rfl
  have hedge0 : g1.edge 0 = { src := p, dst := q, op := EdgeOp.Copy, seq := 0 } := by
    unfold Graph.edge
    rw [hedges]
    rfl
  -- node q of the built graph
  have hnq : g1.node q =
      { op := NodeOp.Use, span := sp2, seq := 1, out_edges := [], in_edges := [0] } := by
    rw [← hadd]
    unfold Graph.node Graph.bump_seq Graph.set_node_op
    rw [ane_fst_nodes]
    unfold Graph.set_node_span
    simp only [hg0, Graph.new]
    rw [listModify_getD_self _ _ _ _ (by
      rw [listModify_length, listModify_length, listModify_length, listModify_length]
      simp; omega)]
    rw [listModify_getD_self _ _ _ _ (by
      rw [listModify_length, listModify_length, listModify_length]
      simp; omega)]
    rw [listModify_getD_ne _ _ _ _ _ hqp]
    rw [listModify_getD_self _ _ _ _ (by
      rw [listModify_length]
      simp; omega)]
    rw [listModify_getD_self _ _ _ _ (by simp; omega)]
    rw [getD_replicate]
    simp [hq, GraphNode.new]
  -- node p of the built graph
  have hnp : g1.node p =
      { op := NodeOp.Nop, span := 0, seq := 0, out_edges := [0], in_edges := [] } := by
    rw [← hadd]
    unfold Graph.node Graph.bump_seq Graph.set_node_op
    rw [ane_fst_nodes]
    unfold Graph.set_node_span
    simp only [hg0, Graph.new]
    rw [listModify_getD_ne _ _ _ _ _ hpq]
    rw [listModify_getD_ne _ _ _ _ _ hpq]
    rw [listModify_getD_self _ _ _ _ (by
      rw [listModify_length, listModify_length]
      simp; omega)]
    rw [listModify_getD_ne _ _ _ _ _ hpq]
    rw [listModify_getD_ne _ _ _ _ _ hpq]
    rw [getD_replicate]
    simp [hp, GraphNode.new]
  -- phase 1: the upside root search lands on p
  have hroot : g1.find_equiv_root (k + 2) q = some p := by
    unfold Graph.find_equiv_root
    simp [Graph.dfs, find_root_operator, hnq, hnp, equivAdmits,
      dfsEdges, Graph.equivalent_edge_validator, hedge0]
  -- phase 2: the downside collection from p gathers exactly p then q
  have hcoll : g1.dfs Direction.Downside find_equivalent_operator
      Graph.equivalent_edge_validator true (k + 2) p ∅ =
      some (insert q (insert p ∅), DFSStatus.Continue) := by
    simp [Graph.dfs, find_equivalent_operator, hnq, hnp, equivAdmits,
      dfsEdges, Graph.equivalent_edge_validator, hedge0, hqp]
  unfold Graph.collect_equivalent_locals
  rw [hroot]
  simp only [] 
  rw [hcoll]
  simp only [Option.map_some', Option.some.injEq]
  rw [show (insert q (insert p ∅) : Finset Nat) = ({q, p} : Finset Nat) from rfl,
    Finset.pair_comm]

/-- Witness for C6 at `p = 1`, `q = 2` on a fresh three-slot graph. -/
theorem c6_equiv_pair_witness :
    exGq.collect_equivalent_locals 2 2 = some {1, 2} := by
  have h := c6_equiv_pair 0 0 1 3 1 2 9 0 exGq (by decide) (by decide) (by decide) rfl
  exact h

/-! ### Preservation of the builder invariant -/

theorem filter_range_succ (L : Nat) (p : Nat → Bool) :
    (List.range (L + 1)).filter p =
      (List.range L).filter p ++ (if p L then [L] else []) := by
  rw [List.range_succ, List.filter_append, List.filter_singleton]
  cases hp : p L <;> simp [hp]

theorem node_op_ane (g : Graph) (s d : Nat) (op : EdgeOp) (n : Nat) :
    ((g.add_node_edge s d op).1.node n).op = (g.node n).op := by
  unfold Graph.node
  rw [ane_fst_nodes]
  by_cases hn : n < g.nodes.length
  · by_cases hs : n = s
    · subst hs
      rw [listModify_getD_self _ _ _ _ (by rwa [listModify_length])]
      by_cases hdq : n = d
      · subst hdq
        rw [listModify_getD_self _ _ _ _ hn]
      · rw [listModify_getD_ne _ _ _ _ _ hdq]
    · rw [listModify_getD_ne _ _ _ _ _ hs]
      by_cases hdq : n = d
      · subst hdq
        rw [listModify_getD_self _ _ _ _ hn]
      · rw [listModify_getD_ne _ _ _ _ _ hdq]
  · push_neg at hn
    rw [getD_oob _ _ _ (by rw [listModify_length, listModify_length]; exact hn),
      getD_oob _ _ _ hn]

theorem node_in_ane (g : Graph) (s d : Nat) (op : EdgeOp)
    (hd : d < g.nodes.length) (n : Nat) :
    ((g.add_node_edge s d op).1.node n).in_edges =
      (g.node n).in_edges ++ (if n = d then [g.edges.length] else []) := by
  unfold Graph.node
  rw [ane_fst_nodes]
  by_cases hn : n < g.nodes.length
  · by_cases hs : n = s
    · subst hs
      rw [listModify_getD_self _ _ _ _ (by rwa [listModify_length])]
      by_cases hdq : n = d
      · subst hdq
        rw [listModify_getD_self _ _ _ _ hn]
        simp
      · rw [listModify_getD_ne _ _ _ _ _ hdq]
        simp [hdq]
    · rw [listModify_getD_ne _ _ _ _ _ hs]
      by_cases hdq : n = d
      · subst hdq
        rw [listModify_getD_self _ _ _ _ hn]
        simp
      · rw [listModify_getD_ne _ _ _ _ _ hdq]
        simp [hdq]
  · push_neg at hn
    have hnd : n ≠ d := by omega
    rw [getD_oob _ _ _ (by rw [listModify_length, listModify_length]; exact hn),
      getD_oob _ _ _ hn]
    simp [hnd]

theorem node_out_ane (g : Graph) (s d : Nat) (op : EdgeOp)
    (hs : s < g.nodes.length) (n : Nat) :
    ((g.add_node_edge s d op).1.node n).out_edges =
      (g.node n).out_edges ++ (if n = s then [g.edges.length] else []) := by
  unfold Graph.node
  rw [ane_fst_nodes]
  by_cases hn : n < g.nodes.length
  · by_cases hsq : n = s
    · subst hsq
      rw [listModify_getD_self _ _ _ _ (by rwa [listModify_length])]
      by_cases hdq : n = d
      · subst hdq
        rw [listModify_getD_self _ _ _ _ hn]
        simp
      · rw [listModify_getD_ne _ _ _ _ _ hdq]
        simp
    · rw [listModify_getD_ne _ _ _ _ _ hsq]
      by_cases hdq : n = d
      · subst hdq
        rw [listModify_getD_self _ _ _ _ hn]
        simp [hsq]
      · rw [listModify_getD_ne _ _ _ _ _ hdq]
        simp [hsq]
  · push_neg at hn
    have hns : n ≠ s := by omega
    rw [getD_oob _ _ _ (by rw [listModify_length, listModify_length]; exact hn),
      getD_oob _ _ _ hn]
    simp [hns]

theorem node_proj_modify {α : Type} (l : List GraphNode) (i : Nat)
    (f : GraphNode → GraphNode) (proj : GraphNode → α)
    (hf : ∀ nd, proj (f nd) = proj nd) (n : Nat) (dflt : GraphNode) :
    proj ((listModify l i f).getD n dflt) = proj (l.getD n dflt) := by
  by_cases hn : n < l.length
  · by_cases hni : n = i
    · subst hni
      rw [listModify_getD_self _ _ _ _ hn, hf]
    · rw [listModify_getD_ne _ _ _ _ _ hni]
  · push_neg at hn
    rw [getD_oob _ _ _ (by rwa [listModify_length]), getD_oob _ _ _ hn]

theorem beq_nat_eq (a b : Nat) : (a == b) = true ↔ a = b := by
  simp

theorem inv_ane (g : Graph) (s d : Nat) (op : EdgeOp) (hInv : BuildInv g)
    (hs : s < g.nodes.length) (hd : d < g.nodes.length) :
    BuildInv (g.add_node_edge s d op).1 := by
  have hL : (g.add_node_edge s d op).1.edges.length = g.edges.length + 1 :=
    ane_edges_length g s d op
  refine ⟨?_, ?_, ?_, ?_, ?_, ?_⟩
  · rw [ane_nodes_length, ane_n_locals]
    exact hInv.nl_le
  · intro i hi str
    rw [node_op_ane]
    exact hInv.locals_not_const i (by rwa [ane_n_locals] at hi) str
  · intro e he
    rw [hL] at he
    rw [ane_nodes_length]
    by_cases heL : e < g.edges.length
    · rw [edge_ane_old _ _ _ _ _ heL]
      exact hInv.edges_valid e heL
    · have : e = g.edges.length := by omega
      subst this
      rw [edge_ane_new]
      exact ⟨hs, hd⟩
  · intro n
    rw [node_in_ane g s d op hd n, hL, filter_range_succ, edge_ane_new]
    have hcongr : (List.range g.edges.length).filter
        (fun e => ((g.add_node_edge s d op).1.edge e).dst == n) =
        (List.range g.edges.length).filter (fun e => (g.edge e).dst == n) := by
      apply List.filter_congr
      intro e he
      rw [edge_ane_old _ _ _ _ _ (List.mem_range.mp he)]
    rw [hcongr, ← hInv.in_exact n]
    by_cases hnd : n = d
    · subst hnd
      simp
    · rw [if_neg hnd,
        if_neg (show ¬ ((d == n) = true) by
          simp
          exact fun h => hnd h.symm)]
  · intro n e he
    rw [node_out_ane g s d op hs n] at he
    rw [hL]
    rcases List.mem_append.mp he with hold | hnew
    · obtain ⟨h1, h2⟩ := hInv.out_sound n e hold
      refine ⟨by omega, ?_⟩
      rw [edge_ane_old _ _ _ _ _ h1]
      exact h2
    · by_cases hns : n = s
      · rw [if_pos hns] at hnew
        simp at hnew
        subst hnew
        refine ⟨by omega, ?_⟩
        rw [edge_ane_new, hns]
      · rw [if_neg hns] at hnew
        simp at hnew
  · intro e he
    rw [hL] at he
    by_cases heL : e < g.edges.length
    · rw [edge_ane_old _ _ _ _ _ heL]
      rcases hInv.out_complete e heL with ⟨str, hconst⟩ | hmem
      · left
        exact ⟨str, by rw [node_op_ane]; exact hconst⟩
      · right
        rw [node_out_ane g s d op hs]
        exact List.mem_append.mpr (Or.inl hmem)
    · have : e = g.edges.length := by omega
      subst this
      right
      rw [edge_ane_new]
      rw [node_out_ane g s d op hs]
      simp

theorem node_in_ace (g : Graph) (str : String) (d : Nat) (op : EdgeOp)
    (hd : d < g.nodes.length) (n : Nat) :
    ((g.add_const_edge str d op).1.node n).in_edges =
      (g.node n).in_edges ++ (if n = d then [g.edges.length] else []) := by
  unfold Graph.node
  rw [ace_fst_nodes]
  by_cases hnd : n = d
  · subst hnd
    rw [listModify_getD_self _ _ _ _ (by simp; omega),
      getD_append_left _ _ _ _ hd]
    simp
  · rw [listModify_getD_ne _ _ _ _ _ hnd]
    rcases Nat.lt_trichotomy n g.nodes.length with hn | hn | hn
    · rw [getD_append_left _ _ _ _ hn]
      simp [hnd]
    · subst hn
      rw [getD_append_len, getD_oob _ _ _ (le_refl _)]
      simp [hnd]
    · rw [getD_oob _ _ _ (by simp; omega), getD_oob _ _ _ (by omega)]
      simp [hnd]

theorem node_out_ace (g : Graph) (str : String) (d : Nat) (op : EdgeOp)
    (hd : d < g.nodes.length) (n : Nat) :
    ((g.add_const_edge str d op).1.node n).out_edges =
      (g.node n).out_edges := by
  unfold Graph.node
  rw [ace_fst_nodes]
  by_cases hnd : n = d
  · subst hnd
    rw [listModify_getD_self _ _ _ _ (by simp; omega),
      getD_append_left _ _ _ _ hd]
  · rw [listModify_getD_ne _ _ _ _ _ hnd]
    rcases Nat.lt_trichotomy n g.nodes.length with hn | hn | hn
    · rw [getD_append_left _ _ _ _ hn]
    · subst hn
      rw [getD_append_len, getD_oob _ _ _ (le_refl _)]
    · rw [getD_oob _ _ _ (by simp; omega), getD_oob _ _ _ (by omega)]

theorem node_op_ace_full (g : Graph) (str : String) (d : Nat) (op : EdgeOp)
    (hd : d < g.nodes.length) (n : Nat) :
    ((g.add_const_edge str d op).1.node n).op =
      (if n = g.nodes.length then NodeOp.Const str else (g.node n).op) := by
  by_cases hn : n = g.nodes.length
  · subst hn
    rw [if_pos rfl, node_ace_new g str d op (by omega)]
  · rw [if_neg hn]
    rcases Nat.lt_trichotomy n g.nodes.length with h | h | h
    · exact node_ace_op_old g str d op n h
    · exact absurd h hn
    · unfold Graph.node
      rw [ace_fst_nodes]
      by_cases hnd : n = d
      · omega
      · rw [listModify_getD_ne _ _ _ _ _ hnd,
          getD_oob _ _ _ (by simp; omega), getD_oob _ _ _ (by omega)]

theorem inv_ace (g : Graph) (str : String) (d : Nat) (op : EdgeOp)
    (hInv : BuildInv g) (hd : d < g.nodes.length) :
    BuildInv (g.add_const_edge str d op).1 := by
  have hL : (g.add_const_edge str d op).1.edges.length = g.edges.length + 1 :=
    ace_edges_length g str d op
  refine ⟨?_, ?_, ?_, ?_, ?_, ?_⟩
  · rw [ace_nodes_length, ace_n_locals]
    have := hInv.nl_le
    omega
  · intro i hi s
    rw [ace_n_locals] at hi
    rw [node_op_ace_full g str d op hd, if_neg (by have := hInv.nl_le; omega)]
    exact hInv.locals_not_const i hi s
  · intro e he
    rw [hL] at he
    rw [ace_nodes_length]
    by_cases heL : e < g.edges.length
    · rw [edge_ace_old _ _ _ _ _ heL]
      have := hInv.edges_valid e heL
      omega
    · have : e = g.edges.length := by omega
      subst this
      rw [edge_ace_new]
      constructor
      · simp
      · simp
        omega
  · intro n
    rw [node_in_ace g str d op hd n, hL, filter_range_succ, edge_ace_new]
    have hcongr : (List.range g.edges.length).filter
        (fun e => ((g.add_const_edge str d op).1.edge e).dst == n) =
        (List.range g.edges.length).filter (fun e => (g.edge e).dst == n) := by
      apply List.filter_congr
      intro e he
      rw [edge_ace_old _ _ _ _ _ (List.mem_range.mp he)]
    rw [hcongr, ← hInv.in_exact n]
    by_cases hnd : n = d
    · subst hnd
      simp
    · rw [if_neg hnd,
        if_neg (show ¬ ((d == n) = true) by
          simp
          exact fun h => hnd h.symm)]
  · intro n e he
    rw [node_out_ace g str d op hd n] at he
    obtain ⟨h1, h2⟩ := hInv.out_sound n e he
    refine ⟨by omega, ?_⟩
    rw [edge_ace_old _ _ _ _ _ h1]
    exact h2
  · intro e he
    rw [hL] at he
    by_cases heL : e < g.edges.length
    · rw [edge_ace_old _ _ _ _ _ heL]
      rcases hInv.out_complete e heL with ⟨s, hconst⟩ | hmem
      · left
        refine ⟨s, ?_⟩
        rw [node_op_ace_full g str d op hd,
          if_neg (by have := (hInv.edges_valid e heL).1; omega)]
        exact hconst
      · right
        rw [node_out_ace g str d op hd]
        exact hmem
    · have : e = g.edges.length := by omega
      subst this
      left
      rw [edge_ace_new]
      exact ⟨str, by rw [node_op_ace_full g str d op hd, if_pos rfl]⟩

theorem inv_new (d sp argc n : Nat) : BuildInv (Graph.new d sp argc n) := by
  refine ⟨by simp [Graph.new], ?_, ?_, ?_, ?_, ?_⟩
  · intro i hi s
    unfold Graph.node Graph.new
    simp only []
    rw [getD_replicate]
    by_cases h : i < n <;> simp [h, GraphNode.new]
  · intro e he
    simp [Graph.new] at he
  · intro m
    unfold Graph.node Graph.new
    simp only []
    rw [getD_replicate]
    by_cases h : m < n <;> simp [h, GraphNode.new, List.range_zero]
  · intro m e he
    unfold Graph.node Graph.new at he
    simp only [] at he
    rw [getD_replicate] at he
    by_cases h : m < n <;> simp [h, GraphNode.new] at he
  · intro e he
    simp [Graph.new] at he

theorem node_push (g : Graph) (n : Nat) :
    (({ g with nodes := g.nodes ++ [GraphNode.new] } : Graph).node n) =
      g.node n := by
  unfold Graph.node
  simp only []
  rcases Nat.lt_trichotomy n g.nodes.length with hn | hn | hn
  · rw [getD_append_left _ _ _ _ hn]
  · subst hn
    rw [getD_append_len, getD_oob _ _ _ (le_refl _)]
  · rw [getD_oob _ _ _ (by simp; omega), getD_oob _ _ _ (by omega)]

theorem inv_push (g : Graph) (hInv : BuildInv g) :
    BuildInv ({ g with nodes := g.nodes ++ [GraphNode.new] } : Graph) := by
  refine ⟨?_, ?_, ?_, ?_, ?_, ?_⟩
  · simp
    have := hInv.nl_le
    omega
  · intro i hi s
    rw [node_push]
    exact hInv.locals_not_const i hi s
  · intro e he
    have h := hInv.edges_valid e he
    have heq : ({ g with nodes := g.nodes ++ [GraphNode.new] } : Graph).edge e
        = g.edge e := rfl
    rw [heq]
    simp
    omega
  · intro n
    rw [node_push]
    exact hInv.in_exact n
  · intro n e he
    rw [node_push] at he
    exact hInv.out_sound n e he
  · intro e he
    rcases hInv.out_complete e he with ⟨s, hconst⟩ | hmem
    · left
      exact ⟨s, by rw [node_push]; exact hconst⟩
    · right
      rw [node_push]
      exact hmem

theorem inv_field_update (g : Graph) (i : Nat) (f : GraphNode → GraphNode)
    (hin : ∀ nd, (f nd).in_edges = nd.in_edges)
    (hout : ∀ nd, (f nd).out_edges = nd.out_edges)
    (hop_intro : ∀ s, (f (g.node i)).op = NodeOp.Const s →
      (g.node i).op = NodeOp.Const s)
    (hop_keep : ∀ s, (g.node i).op = NodeOp.Const s →
      (f (g.node i)).op = NodeOp.Const s)
    (hInv : BuildInv g) :
    BuildInv ({ g with nodes := listModify g.nodes i f } : Graph) := by
  have hin' : ∀ n, (({ g with nodes := listModify g.nodes i f } : Graph).node n).in_edges
      = (g.node n).in_edges := by
    intro n
    unfold Graph.node
    exact node_proj_modify g.nodes i f GraphNode.in_edges hin n GraphNode.new
  have hout' : ∀ n, (({ g with nodes := listModify g.nodes i f } : Graph).node n).out_edges
      = (g.node n).out_edges := by
    intro n
    unfold Graph.node
    exact node_proj_modify g.nodes i f GraphNode.out_edges hout n GraphNode.new
  have hop' : ∀ n s, (({ g with nodes := listModify g.nodes i f } : Graph).node n).op
      = NodeOp.Const s ↔ (g.node n).op = NodeOp.Const s := by
    intro n s
    unfold Graph.node
    simp only []
    by_cases hn : n < g.nodes.length
    · by_cases hni : n = i
      · subst hni
        rw [listModify_getD_self _ _ _ _ hn]
        exact ⟨fun h => hop_intro s h, fun h => hop_keep s h⟩
      · rw [listModify_getD_ne _ _ _ _ _ hni]
    · push_neg at hn
      rw [getD_oob _ _ _ (by rwa [listModify_length]), getD_oob _ _ _ hn]
  refine ⟨?_, ?_, ?_, ?_, ?_, ?_⟩
  · simp only [listModify_length]
    exact hInv.nl_le
  · intro j hj s
    rw [ne_eq, hop' j s]
    exact hInv.locals_not_const j hj s
  · intro e he
    simp only [listModify_length]
    exact hInv.edges_valid e he
  · intro n
    rw [hin']
    exact hInv.in_exact n
  · intro n e he
    rw [hout'] at he
    exact hInv.out_sound n e he
  · intro e he
    rcases hInv.out_complete e he with ⟨s, hconst⟩ | hmem
    · left
      exact ⟨s, (hop' _ s).mpr hconst⟩
    · right
      rw [hout']
      exact hmem

theorem inv_set_node_span (g : Graph) (i sp : Nat) (hInv : BuildInv g) :
    BuildInv (g.set_node_span i sp) :=
  inv_field_update g i _ (fun _ => rfl) (fun _ => rfl)
    (fun _ h => h) (fun _ h => h) hInv

theorem inv_bump (g : Graph) (i : Nat) (hInv : BuildInv g) :
    BuildInv (g.bump_seq i) :=
  inv_field_update g i _ (fun _ => rfl) (fun _ => rfl)
    (fun _ h => h) (fun _ h => h) hInv

theorem inv_set_node_op (g : Graph) (i : Nat) (op : NodeOp)
    (hold : ∀ s, (g.node i).op ≠ NodeOp.Const s)
    (hnew : ∀ s, op ≠ NodeOp.Const s) (hInv : BuildInv g) :
    BuildInv (g.set_node_op i op) :=
  inv_field_update g i _ (fun _ => rfl) (fun _ => rfl)
    (fun s h => absurd h (hnew s)) (fun s h => absurd h (hold s)) hInv

/-- Extension facts carried through builder steps: the local count is stable,
the node list only grows, and the tags of pre-existing nodes are unchanged. -/
structure GExt (g g' : Graph) : Prop where
  n_locals_eq : g'.n_locals = g.n_locals
  nodes_le : g.nodes.length ≤ g'.nodes.length
  op_pres : ∀ n, n < g.nodes.length → (g'.node n).op = (g.node n).op

theorem GExt.self_ext (g : Graph) : GExt g g :=
  ⟨rfl, le_refl _, fun _ _ => rfl⟩

theorem GExt.trans_ext {g1 g2 g3 : Graph} (h12 : GExt g1 g2) (h23 : GExt g2 g3) :
    GExt g1 g3 :=
  ⟨h23.n_locals_eq.trans h12.n_locals_eq, le_trans h12.nodes_le h23.nodes_le,
    fun n hn => (h23.op_pres n (Nat.lt_of_lt_of_le hn h12.nodes_le)).trans
      (h12.op_pres n hn)⟩

theorem gext_ane (g : Graph) (s d : Nat) (op : EdgeOp) :
    GExt g (g.add_node_edge s d op).1 :=
  ⟨ane_n_locals g s d op, le_of_eq (ane_nodes_length g s d op).symm,
    fun n _ => node_op_ane g s d op n⟩

theorem gext_ace (g : Graph) (str : String) (d : Nat) (op : EdgeOp) :
    GExt g (g.add_const_edge str d op).1 :=
  ⟨ace_n_locals g str d op, by rw [ace_nodes_length]; omega,
    fun n hn => node_ace_op_old g str d op n hn⟩

theorem gext_push (g : Graph) :
    GExt g ({ g with nodes := g.nodes ++ [GraphNode.new] } : Graph) :=
  ⟨rfl, by simp, fun n _ => by rw [node_push]⟩

theorem gext_set_node_span (g : Graph) (i sp : Nat) :
    GExt g (g.set_node_span i sp) :=
  ⟨rfl, le_of_eq (set_node_span_nodes_length g i sp).symm,
    fun n _ => node_op_set_span g i sp n⟩

theorem placeElemValid_of_eq (g g' : Graph) (h : g'.n_locals = g.n_locals)
    (el : PlaceElem) (hv : PlaceElemValid g el) : PlaceElemValid g' el := by
  cases el <;> simp [PlaceElemValid] at hv ⊢
  omega

theorem placeValid_of_eq (g g' : Graph) (h : g'.n_locals = g.n_locals)
    (p : Place) (hv : PlaceValid g p) : PlaceValid g' p :=
  ⟨by rw [h]; exact hv.1,
   fun el hel => placeElemValid_of_eq g g' h el (hv.2 el hel)⟩

theorem operandValid_of_eq (g g' : Graph) (h : g'.n_locals = g.n_locals)
    (op : Operand) (hv : OperandValid g op) : OperandValid g' op := by
  cases op with
  | Copy p => exact placeValid_of_eq g g' h p hv
  | Move p => exact placeValid_of_eq g g' h p hv
  | Constant c => trivial

theorem inv_parse_one_step (g : Graph) (src : Nat) (el : PlaceElem)
    (g' : Graph) (ret : Nat) (hInv : BuildInv g) (hsrc : src < g.nodes.length)
    (hv : PlaceElemValid g el) (h : parse_one_step g src el = some (g', ret)) :
    BuildInv g' ∧ GExt g g' ∧ ret < g'.nodes.length ∧
      (∀ s, (g'.node ret).op ≠ NodeOp.Const s) := by
  have hretn := parse_one_step_ret_lt g src el g' ret h
  have hrel := relNew_parse_one_step g src el g' ret h
  have hpn : ({ g with nodes := g.nodes ++ [GraphNode.new] } : Graph).nodes.length
      = g.nodes.length + 1 := by simp
  have hnop : (({ g with nodes := g.nodes ++ [GraphNode.new] } : Graph).node
      g.nodes.length).op = NodeOp.Nop := by
    unfold Graph.node
    simp only []
    rw [getD_append_len]
    rfl
  cases el <;> simp only [parse_one_step] at h
  case Unsupported => simp at h
  case Downcast symbol =>
    cases symbol with
    | none => simp at h
    | some s =>
        simp only [Option.some.injEq, Prod.mk.injEq] at h
        obtain ⟨h1, h2⟩ := h
        subst h1 h2
        refine ⟨inv_ane _ _ _ _ (inv_push g hInv) (by omega) (by omega),
          (gext_push g).trans_ext (gext_ane _ _ _ _), hretn, ?_⟩
        intro s2
        rw [node_op_ane, hnop]
        simp
  case Index idx =>
    cases h with
    | refl =>
        have hidx : idx < g.nodes.length :=
          Nat.lt_of_lt_of_le (by simpa [PlaceElemValid] using hv) hInv.nl_le
        refine ⟨inv_ane _ _ _ _
            (inv_ane _ _ _ _ (inv_push g hInv) (by omega) (by omega))
            (by rw [ane_nodes_length]; omega) (by rw [ane_nodes_length]; omega),
          ((gext_push g).trans_ext (gext_ane _ _ _ _)).trans_ext (gext_ane _ _ _ _),
          hretn, ?_⟩
        intro s2
        rw [node_op_ane, node_op_ane, hnop]
        simp
  all_goals
    cases h with
    | refl =>
        refine ⟨inv_ane _ _ _ _ (inv_push g hInv) (by omega) (by omega),
          (gext_push g).trans_ext (gext_ane _ _ _ _), hretn, ?_⟩
        intro s2
        rw [node_op_ane, hnop]
        simp

theorem inv_parse_go (elems : List PlaceElem) (g : Graph) (ret : Nat)
    (g' : Graph) (ret' : Nat) (hInv : BuildInv g) (hret : ret < g.nodes.length)
    (hretc : ∀ s, (g.node ret).op ≠ NodeOp.Const s)
    (hv : ∀ el ∈ elems, PlaceElemValid g el)
    (h : parse_place_go g ret elems = some (g', ret')) :
    BuildInv g' ∧ GExt g g' ∧ ret' < g'.nodes.length ∧
      (∀ s, (g'.node ret').op ≠ NodeOp.Const s) := by
  induction elems generalizing g ret with
  | nil =>
      simp only [parse_place_go, Option.some.injEq, Prod.mk.injEq] at h
      obtain ⟨h1, h2⟩ := h
      subst h1 h2
      exact ⟨hInv, GExt.self_ext g, hret, hretc⟩
  | cons el rest ih =>
      simp only [parse_place_go] at h
      cases hs : parse_one_step g ret el with
      | none => rw [hs] at h; simp at h
      | some pr =>
          rw [hs] at h
          obtain ⟨hInv1, hext1, hr1, hc1⟩ :=
            inv_parse_one_step g ret el pr.1 pr.2 hInv hret
              (hv el (List.mem_cons_self el rest)) hs
          obtain ⟨hInv2, hext2, hr2, hc2⟩ :=
            ih pr.1 pr.2 hInv1 hr1 hc1
              (fun e he => placeElemValid_of_eq g pr.1 hext1.n_locals_eq e
                (hv e (List.mem_cons_of_mem el he))) h
          exact ⟨hInv2, hext1.trans_ext hext2, hr2, hc2⟩

theorem inv_parse_place (g : Graph) (p : Place) (g' : Graph) (ret : Nat)
    (hInv : BuildInv g) (hv : PlaceValid g p)
    (h : g.parse_place p = some (g', ret)) :
    BuildInv g' ∧ GExt g g' ∧ ret < g'.nodes.length ∧
      (∀ s, (g'.node ret).op ≠ NodeOp.Const s) :=
  inv_parse_go p.projection g p.lcl g' ret hInv
    (Nat.lt_of_lt_of_le hv.1 hInv.nl_le)
    (hInv.locals_not_const p.lcl hv.1) hv.2 h

theorem inv_add_operand (g : Graph) (op : Operand) (dst : Nat) (g' : Graph)
    (hInv : BuildInv g) (hv : OperandValid g op) (hdst : dst < g.nodes.length)
    (h : g.add_operand op dst = some g') : BuildInv g' ∧ GExt g g' := by
  cases op with
  | Copy p =>
      simp only [Graph.add_operand] at h
      cases hp : g.parse_place p with
      | none => rw [hp] at h; simp at h
      | some pr =>
          rw [hp] at h
          simp only [Option.some.injEq] at h
          obtain ⟨hInv1, hext1, hr1, _⟩ := inv_parse_place g p pr.1 pr.2 hInv hv hp
          rw [← h]
          exact ⟨inv_ane _ _ _ _ hInv1 hr1
              (Nat.lt_of_lt_of_le hdst hext1.nodes_le),
            hext1.trans_ext (gext_ane _ _ _ _)⟩
  | Move p =>
      simp only [Graph.add_operand] at h
      cases hp : g.parse_place p with
      | none => rw [hp] at h; simp at h
      | some pr =>
          rw [hp] at h
          simp only [Option.some.injEq] at h
          obtain ⟨hInv1, hext1, hr1, _⟩ := inv_parse_place g p pr.1 pr.2 hInv hv hp
          rw [← h]
          exact ⟨inv_ane _ _ _ _ hInv1 hr1
              (Nat.lt_of_lt_of_le hdst hext1.nodes_le),
            hext1.trans_ext (gext_ane _ _ _ _)⟩
  | Constant c =>
      simp only [Graph.add_operand, Option.some.injEq] at h
      rw [← h]
      exact ⟨inv_ace _ _ _ _ hInv hdst, gext_ace _ _ _ _⟩

theorem inv_add_operands (ops : List Operand) (g : Graph) (dst : Nat)
    (g' : Graph) (hInv : BuildInv g) (hv : ∀ o ∈ ops, OperandValid g o)
    (hdst : dst < g.nodes.length)
    (h : add_operands g ops dst = some g') : BuildInv g' ∧ GExt g g' := by
  induction ops generalizing g with
  | nil =>
      simp only [add_operands, Option.some.injEq] at h
      rw [← h]
      exact ⟨hInv, GExt.self_ext g⟩
  | cons o rest ih =>
      simp only [add_operands] at h
      cases ho : g.add_operand o dst with
      | none => rw [ho] at h; simp at h
      | some g1 =>
          rw [ho] at h
          obtain ⟨hInv1, hext1⟩ := inv_add_operand g o dst g1 hInv
            (hv o (List.mem_cons_self o rest)) hdst ho
          obtain ⟨hInv2, hext2⟩ := ih g1 hInv1
            (fun o2 ho2 => operandValid_of_eq g g1 hext1.n_locals_eq o2
              (hv o2 (List.mem_cons_of_mem o ho2)))
            (Nat.lt_of_lt_of_le hdst hext1.nodes_le) h
          exact ⟨hInv2, hext1.trans_ext hext2⟩

theorem inv_add_rvalue (g : Graph) (rv : Rvalue) (dst : Nat) (g' : Graph)
    (hInv : BuildInv g) (hv : RvalueValid g rv) (hdst : dst < g.nodes.length)
    (hdstc : ∀ s, (g.node dst).op ≠ NodeOp.Const s)
    (h : g.add_rvalue rv dst = some g') : BuildInv g' := by
  cases rv with
  | Use op =>
      simp only [Graph.add_rvalue] at h
      cases ho : g.add_operand op dst with
      | none => rw [ho] at h; simp at h
      | some g1 =>
          rw [ho] at h
          simp only [Option.map_some', Option.some.injEq] at h
          obtain ⟨hInv1, hext1⟩ := inv_add_operand g op dst g1 hInv hv hdst ho
          rw [← h]
          exact inv_set_node_op g1 dst _
            (fun s => by rw [hext1.op_pres dst hdst]; exact hdstc s)
            (fun s => by simp) hInv1
  | Repeat op =>
      simp only [Graph.add_rvalue] at h
      cases ho : g.add_operand op dst with
      | none => rw [ho] at h; simp at h
      | some g1 =>
          rw [ho] at h
          simp only [Option.map_some', Option.some.injEq] at h
          obtain ⟨hInv1, hext1⟩ := inv_add_operand g op dst g1 hInv hv hdst ho
          rw [← h]
          exact inv_set_node_op g1 dst _
            (fun s => by rw [hext1.op_pres dst hdst]; exact hdstc s)
            (fun s => by simp) hInv1
  | Cast op =>
      simp only [Graph.add_rvalue] at h
      cases ho : g.add_operand op dst with
      | none => rw [ho] at h; simp at h
      | some g1 =>
          rw [ho] at h
          simp only [Option.map_some', Option.some.injEq] at h
          obtain ⟨hInv1, hext1⟩ := inv_add_operand g op dst g1 hInv hv hdst ho
          rw [← h]
          exact inv_set_node_op g1 dst _
            (fun s => by rw [hext1.op_pres dst hdst]; exact hdstc s)
            (fun s => by simp) hInv1
  | UnaryOp op =>
      simp only [Graph.add_rvalue] at h
      cases ho : g.add_operand op dst with
      | none => rw [ho] at h; simp at h
      | some g1 =>
          rw [ho] at h
          simp only [Option.map_some', Option.some.injEq] at h
          obtain ⟨hInv1, hext1⟩ := inv_add_operand g op dst g1 hInv hv hdst ho
          rw [← h]
          exact inv_set_node_op g1 dst _
            (fun s => by rw [hext1.op_pres dst hdst]; exact hdstc s)
            (fun s => by simp) hInv1
  | ShallowInitBox op =>
      simp only [Graph.add_rvalue] at h
      cases ho : g.add_operand op dst with
      | none => rw [ho] at h; simp at h
      | some g1 =>
          rw [ho] at h
          simp only [Option.map_some', Option.some.injEq] at h
          obtain ⟨hInv1, hext1⟩ := inv_add_operand g op dst g1 hInv hv hdst ho
          rw [← h]
          exact inv_set_node_op g1 dst _
            (fun s => by rw [hext1.op_pres dst hdst]; exact hdstc s)
            (fun s => by simp) hInv1
  | Ref bk p =>
      simp only [Graph.add_rvalue] at h
      cases hp : g.parse_place p with
      | none => rw [hp] at h; simp at h
      | some pr =>
          rw [hp] at h
          simp only [Option.some.injEq] at h
          obtain ⟨hInv1, hext1, hr1, _⟩ := inv_parse_place g p pr.1 pr.2 hInv hv hp
          rw [← h]
          refine inv_set_node_op _ dst _ ?_ (fun s => by simp)
            (inv_ane _ _ _ _ hInv1 hr1 (Nat.lt_of_lt_of_le hdst hext1.nodes_le))
          intro s
          rw [node_op_ane, hext1.op_pres dst hdst]
          exact hdstc s
  | Len p =>
      simp only [Graph.add_rvalue] at h
      cases hp : g.parse_place p with
      | none => rw [hp] at h; simp at h
      | some pr =>
          rw [hp] at h
          simp only [Option.some.injEq] at h
          obtain ⟨hInv1, hext1, hr1, _⟩ := inv_parse_place g p pr.1 pr.2 hInv hv hp
          rw [← h]
          refine inv_set_node_op _ dst _ ?_ (fun s => by simp)
            (inv_ane _ _ _ _ hInv1 hr1 (Nat.lt_of_lt_of_le hdst hext1.nodes_le))
          intro s
          rw [node_op_ane, hext1.op_pres dst hdst]
          exact hdstc s
  | Discriminant p =>
      simp only [Graph.add_rvalue] at h
      cases hp : g.parse_place p with
      | none => rw [hp] at h; simp at h
      | some pr =>
          rw [hp] at h
          simp only [Option.some.injEq] at h
          obtain ⟨hInv1, hext1, hr1, _⟩ := inv_parse_place g p pr.1 pr.2 hInv hv hp
          rw [← h]
          refine inv_set_node_op _ dst _ ?_ (fun s => by simp)
            (inv_ane _ _ _ _ hInv1 hr1 (Nat.lt_of_lt_of_le hdst hext1.nodes_le))
          intro s
          rw [node_op_ane, hext1.op_pres dst hdst]
          exact hdstc s
  | CopyForDeref p =>
      simp only [Graph.add_rvalue] at h
      cases hp : g.parse_place p with
      | none => rw [hp] at h; simp at h
      | some pr =>
          rw [hp] at h
          simp only [Option.some.injEq] at h
          obtain ⟨hInv1, hext1, hr1, _⟩ := inv_parse_place g p pr.1 pr.2 hInv hv hp
          rw [← h]
          refine inv_set_node_op _ dst _ ?_ (fun s => by simp)
            (inv_ane _ _ _ _ hInv1 hr1 (Nat.lt_of_lt_of_le hdst hext1.nodes_le))
          intro s
          rw [node_op_ane, hext1.op_pres dst hdst]
          exact hdstc s
  | BinaryOp o1 o2 =>
      simp only [Graph.add_rvalue] at h
      cases h1 : g.add_operand o1 dst with
      | none => rw [h1] at h; simp at h
      | some g1 =>
          rw [h1] at h
          simp only [] at h
          cases h2 : g1.add_operand o2 dst with
          | none => rw [h2] at h; simp at h
          | some g2 =>
              rw [h2] at h
              simp only [Option.some.injEq] at h
              obtain ⟨hInv1, hext1⟩ := inv_add_operand g o1 dst g1 hInv hv.1 hdst h1
              obtain ⟨hInv2, hext2⟩ := inv_add_operand g1 o2 dst g2 hInv1
                (operandValid_of_eq g g1 hext1.n_locals_eq o2 hv.2)
                (Nat.lt_of_lt_of_le hdst hext1.nodes_le) h2
              rw [← h]
              refine inv_set_node_op g2 dst _ ?_ (fun s => by simp) hInv2
              intro s
              rw [(hext1.trans_ext hext2).op_pres dst hdst]
              exact hdstc s
  | Aggregate k ops =>
      simp only [Graph.add_rvalue] at h
      cases ho : add_operands g ops dst with
      | none => rw [ho] at h; simp at h
      | some g1 =>
          rw [ho] at h
          obtain ⟨hInv1, hext1⟩ := inv_add_operands ops g dst g1 hInv hv hdst ho
          have hc1 : ∀ s, (g1.node dst).op ≠ NodeOp.Const s := by
            intro s
            rw [hext1.op_pres dst hdst]
            exact hdstc s
          cases k <;> simp only [Option.some.injEq] at h
          case Array =>
            rw [← h]
            exact inv_set_node_op g1 dst _ hc1 (fun s => by simp) hInv1
          case Tuple =>
            rw [← h]
            exact inv_set_node_op g1 dst _ hc1 (fun s => by simp) hInv1
          case Adt d2 =>
            rw [← h]
            exact inv_set_node_op g1 dst _ hc1 (fun s => by simp) hInv1
          case Closure d2 =>
            rw [← h]
            exact inv_set_node_op g1 dst _ hc1 (fun s => by simp) hInv1
          case Unsupported => simp at h
  | NullaryOp tyStr =>
      simp only [Graph.add_rvalue, Option.some.injEq] at h
      rw [← h]
      refine inv_set_node_op _ dst _ ?_ (fun s => by simp)
        (inv_ace _ _ _ _ hInv hdst)
      intro s
      rw [node_op_ace_full g tyStr dst EdgeOp.Nop hdst, if_neg (by omega)]
      exact hdstc s
  | ThreadLocalRef => simp [Graph.add_rvalue] at h
  | RawPtr => simp [Graph.add_rvalue] at h

theorem rvalueValid_of_eq (g g' : Graph) (h : g'.n_locals = g.n_locals)
    (rv : Rvalue) (hv : RvalueValid g rv) : RvalueValid g' rv := by
  cases rv with
  | Use op => exact operandValid_of_eq g g' h op hv
  | Repeat op => exact operandValid_of_eq g g' h op hv
  | Ref bk p => exact placeValid_of_eq g g' h p hv
  | Len p => exact placeValid_of_eq g g' h p hv
  | Cast op => exact operandValid_of_eq g g' h op hv
  | BinaryOp o1 o2 =>
      exact ⟨operandValid_of_eq g g' h o1 hv.1, operandValid_of_eq g g' h o2 hv.2⟩
  | Aggregate k ops =>
      exact fun o ho => operandValid_of_eq g g' h o (hv o ho)
  | UnaryOp op => exact operandValid_of_eq g g' h op hv
  | NullaryOp tyStr => trivial
  | ThreadLocalRef => trivial
  | Discriminant p => exact placeValid_of_eq g g' h p hv
  | ShallowInitBox op => exact operandValid_of_eq g g' h op hv
  | CopyForDeref p => exact placeValid_of_eq g g' h p hv
  | RawPtr => trivial

theorem inv_statm (g : Graph) (stmt : Statement) (g' : Graph)
    (hInv : BuildInv g) (hv : StmtValid g stmt)
    (h : g.add_statm_to_graph stmt = some g') : BuildInv g' := by
  cases hk : stmt.kind with
  | OtherStmt =>
      simp only [Graph.add_statm_to_graph, hk, Option.some.injEq] at h
      rw [← h]
      exact hInv
  | Assign place rv =>
      simp only [StmtValid, hk] at hv
      obtain ⟨hpv, hrv⟩ := hv
      simp only [Graph.add_statm_to_graph, hk] at h
      cases hp : g.parse_place place with
      | none => rw [hp] at h; simp at h
      | some pr =>
          rw [hp] at h
          simp only [] at h
          obtain ⟨hInv1, hext1, hr1, hc1⟩ :=
            inv_parse_place g place pr.1 pr.2 hInv hpv hp
          cases hrv3 : (pr.1.set_node_span pr.2 stmt.span).add_rvalue rv pr.2 with
          | none => rw [hrv3] at h; simp at h
          | some g3 =>
              rw [hrv3] at h
              simp only [Option.some.injEq] at h
              have hInv2 : BuildInv (pr.1.set_node_span pr.2 stmt.span) :=
                inv_set_node_span pr.1 pr.2 stmt.span hInv1
              have hInv3 : BuildInv g3 := by
                refine inv_add_rvalue _ rv pr.2 g3 hInv2 ?_ ?_ ?_ hrv3
                · exact rvalueValid_of_eq g _ hext1.n_locals_eq rv hrv
                · rw [set_node_span_nodes_length]
                  exact hr1
                · intro s
                  rw [node_op_set_span]
                  exact hc1 s
              rw [← h]
              exact inv_bump g3 pr.2 hInv3

theorem inv_term (g : Graph) (t : Terminator) (g' : Graph)
    (hInv : BuildInv g) (hv : TermValid g t)
    (h : g.add_terminator_to_graph t = some g') : BuildInv g' := by
  cases hk : t.kind with
  | OtherTerm =>
      simp only [Graph.add_terminator_to_graph, hk, Option.some.injEq] at h
      rw [← h]
      exact hInv
  | Call func args destP =>
      simp only [TermValid, hk] at hv
      obtain ⟨hfv, hav, hdl⟩ := hv
      have hdn : destP.lcl < g.nodes.length := Nat.lt_of_lt_of_le hdl hInv.nl_le
      have hdc : ∀ s, (g.node destP.lcl).op ≠ NodeOp.Const s :=
        hInv.locals_not_const destP.lcl hdl
      simp only [Graph.add_terminator_to_graph, hk] at h
      cases func with
      | Constant c =>
          cases c with
          | Val s ty =>
              cases ty with
              | FnDef did =>
                  simp only [] at h
                  cases ha : add_operands g args destP.lcl with
                  | none => rw [ha] at h; simp at h
                  | some ga =>
                      rw [ha] at h
                      simp only [Option.map_some', Option.some.injEq] at h
                      obtain ⟨hInva, hexta⟩ :=
                        inv_add_operands args g destP.lcl ga hInv hav hdn ha
                      rw [← h]
                      refine inv_bump _ _ (inv_set_node_span _ _ _
                        (inv_set_node_op ga destP.lcl _ ?_ (fun s2 => by simp) hInva))
                      intro s2
                      rw [hexta.op_pres destP.lcl hdn]
                      exact hdc s2
              | Other =>
                  simp only [Option.map_some', Option.some.injEq] at h
                  rw [← h]
                  exact inv_bump _ _ (inv_set_node_span _ _ _ hInv)
          | Other s =>
              simp only [Option.map_some', Option.some.injEq] at h
              rw [← h]
              exact inv_bump _ _ (inv_set_node_span _ _ _ hInv)
      | Move p =>
          simp only [] at h
          cases hf : g.add_operand (Operand.Move p) destP.lcl with
          | none => rw [hf] at h; simp at h
          | some g1 =>
              rw [hf] at h
              simp only [] at h
              cases ha : add_operands g1 args destP.lcl with
              | none => rw [ha] at h; simp at h
              | some ga =>
                  rw [ha] at h
                  simp only [Option.map_some', Option.some.injEq] at h
                  obtain ⟨hInv1, hext1⟩ :=
                    inv_add_operand g (Operand.Move p) destP.lcl g1 hInv hfv hdn hf
                  obtain ⟨hInva, hexta⟩ := inv_add_operands args g1 destP.lcl ga hInv1
                    (fun o ho => operandValid_of_eq g g1 hext1.n_locals_eq o (hav o ho))
                    (Nat.lt_of_lt_of_le hdn hext1.nodes_le) ha
                  rw [← h]
                  refine inv_bump _ _ (inv_set_node_span _ _ _
                    (inv_set_node_op ga destP.lcl _ ?_ (fun s2 => by simp) hInva))
                  intro s2
                  rw [(hext1.trans_ext hexta).op_pres destP.lcl hdn]
                  exact hdc s2
      | Copy p => simp at h

/-- Every graph reachable by the building operations satisfies the full
builder invariant. -/
theorem built_buildInv : ∀ g, Built g → BuildInv g := by
  intro g hb
  induction hb with
  | new d sp argc n => exact inv_new d sp argc n
  | node_edge g s d op _ hs hd ih => exact inv_ane g s d op ih hs hd
  | const_edge g str d op _ hd ih => exact inv_ace g str d op ih hd
  | operand g op d g' _ hv hd heq ih =>
      exact (inv_add_operand g op d g' ih hv (Nat.lt_of_lt_of_le hd ih.nl_le) heq).1
  | statm g stmt g' _ hv heq ih => exact inv_statm g stmt g' ih hv heq
  | term g t g' _ hv heq ih => exact inv_term g t g' ih hv heq

/-- Counterexample for C1: after a single `add_const_edge`, edge 0's source
is the constant node (index 1), but that node's `out_edges` list is empty —
the out half of the invariant fails on a built graph. -/
theorem c1_counterexample :
    Built exGconst ∧
    ¬ (InEdgesExact exGconst ∧ OutEdgesExact exGconst) := by
  constructor
  · exact Built.const_edge (Graph.new 0 0 0 1) "c" 0 EdgeOp.Const
      (Built.new 0 0 0 1) (by decide)
  · intro hcl
    exact absurd (hcl.2 1) (by decide)

/-- C1 (amended): after every graph-building operation, every node's
`in_edges` list is exactly the ids of edges whose destination is that node;
every id in a node's `out_edges` names an edge whose source is that node; and
every edge appears in its source's `out_edges` unless its source is a
constant node — edges created by `add_const_edge` are missing from their
constant source node's (empty) `out_edges` list. -/
theorem c1_edge_lists :
    ∀ g, Built g →
      InEdgesExact g ∧ OutEdgesSound g ∧ OutEdgesCompleteNonConst g := by
  intro g hb
  have h := built_buildInv g hb
  exact ⟨h.in_exact, h.out_sound, h.out_complete⟩

/-- Witness for C1 (amended) on the one-const-edge graph. -/
theorem c1_edge_lists_witness :
    (exGconst.node 0).in_edges = (List.range exGconst.edges.length).filter
      (fun e => (exGconst.edge e).dst == 0) ∧
    ((∃ s, (exGconst.node (exGconst.edge 0).src).op = NodeOp.Const s) ∨
      0 ∈ (exGconst.node (exGconst.edge 0).src).out_edges) := by
  have hb : Built exGconst := Built.const_edge (Graph.new 0 0 0 1) "c" 0
    EdgeOp.Const (Built.new 0 0 0 1) (by decide)
  have h := c1_edge_lists exGconst hb
  exact ⟨h.1 0, h.2.2 0 (by decide)⟩

/-! ### Counting the edges an operand resolution adds into a destination -/

theorem newEdgesInto_eq_edges (g g1 g2 : Graph) (d : Nat)
    (h : g2.edges = g1.edges) : newEdgesInto g g2 d = newEdgesInto g g1 d := by
  unfold newEdgesInto Graph.edge
  rw [h]

theorem newEdgesInto_split (g g1 g2 : Graph) (d : Nat) (h01 : RelNew g g1)
    (h12 : RelNew g1 g2) :
    newEdgesInto g g2 d = newEdgesInto g g1 d + newEdgesInto g1 g2 d := by
  unfold newEdgesInto
  have hle1 : g.edges.length ≤ g1.edges.length := h01.edges_le
  have hle2 : g1.edges.length ≤ g2.edges.length := h12.edges_le
  have hsum : g1.edges.length + (g2.edges.length - g1.edges.length)
      = g2.edges.length := by omega
  have hrange : List.range g2.edges.length = List.range g1.edges.length ++
      (List.range (g2.edges.length - g1.edges.length)).map
        (fun x => g1.edges.length + x) := by
    rw [← hsum, List.range_add]
    simp [hsum]
  rw [hrange, List.countP_append, List.countP_append]
  have hA : (List.range g1.edges.length).countP
      (fun e => decide (g.edges.length <= e) && ((g2.edge e).dst == d)) =
      (List.range g1.edges.length).countP
      (fun e => decide (g.edges.length <= e) && ((g1.edge e).dst == d)) := by
    apply List.countP_congr
    intro e he
    rw [List.mem_range] at he
    rw [h12.edges_old e he]
  have hB : (List.range g1.edges.length).countP
      (fun e => decide (g1.edges.length <= e) && ((g2.edge e).dst == d)) = 0 := by
    rw [List.countP_eq_zero]
    intro e he
    rw [List.mem_range] at he
    simp [Nat.not_le.mpr he]
  have hC : ((List.range (g2.edges.length - g1.edges.length)).map
        (fun x => g1.edges.length + x)).countP
      (fun e => decide (g.edges.length <= e) && ((g2.edge e).dst == d)) =
      ((List.range (g2.edges.length - g1.edges.length)).map
        (fun x => g1.edges.length + x)).countP
      (fun e => decide (g1.edges.length <= e) && ((g2.edge e).dst == d)) := by
    apply List.countP_congr
    intro e he
    obtain ⟨x, _, hx⟩ := List.mem_map.mp he
    have h1 : g.edges.length ≤ e := by omega
    have h2 : g1.edges.length ≤ e := by omega
    simp [h1, h2]
  rw [hA, hB, hC]
  omega

theorem newEdgesInto_append1 (g g' : Graph) (d : Nat) (E : GraphEdge)
    (h : g'.edges = g.edges ++ [E]) :
    newEdgesInto g g' d = if E.dst = d then 1 else 0 := by
  unfold newEdgesInto Graph.edge
  rw [h]
  simp only [List.length_append, List.length_singleton]
  rw [List.range_succ, List.countP_append]
  have hz : (List.range g.edges.length).countP
      (fun e => decide (g.edges.length <= e) &&
        (((g.edges ++ [E]).getD e dEdge).dst == d)) = 0 := by
    rw [List.countP_eq_zero]
    intro e he
    rw [List.mem_range] at he
    simp [Nat.not_le.mpr he]
  rw [hz]
  simp only [List.countP_cons, List.countP_nil]
  rw [getD_append_len]
  by_cases hE : E.dst = d
  · simp [hE]
  · simp [hE]

theorem newEdgesInto_ane (g : Graph) (s d' : Nat) (op : EdgeOp) (d : Nat) :
    newEdgesInto g (g.add_node_edge s d' op).1 d = if d' = d then 1 else 0 :=
  newEdgesInto_append1 g _ d _ (ane_fst_edges g s d' op)

theorem newEdgesInto_ace (g : Graph) (str : String) (d' : Nat) (op : EdgeOp)
    (d : Nat) :
    newEdgesInto g (g.add_const_edge str d' op).1 d = if d' = d then 1 else 0 :=
  newEdgesInto_append1 g _ d _ (ace_fst_edges g str d' op)

theorem newEdgesInto_self (g : Graph) (d : Nat) : newEdgesInto g g d = 0 := by
  unfold newEdgesInto
  rw [List.countP_eq_zero]
  intro e he
  rw [List.mem_range] at he
  simp [Nat.not_le.mpr he]

theorem newEdgesInto_parse_one_step (g : Graph) (src : Nat) (el : PlaceElem)
    (g' : Graph) (ret : Nat) (d : Nat) (hd : d < g.nodes.length)
    (h : parse_one_step g src el = some (g', ret)) :
    newEdgesInto g g' d = 0 := by
  have hdne : ¬ (g.nodes.length = d) := by omega
  cases el <;> simp only [parse_one_step] at h
  case Unsupported => simp at h
  case Downcast symbol =>
    cases symbol with
    | none => simp at h
    | some s =>
        simp only [Option.some.injEq, Prod.mk.injEq] at h
        obtain ⟨h1, _⟩ := h
        rw [← h1, newEdgesInto_append1 g _ d _
          (ane_fst_edges ({ g with nodes := g.nodes ++ [GraphNode.new] } : Graph)
            src g.nodes.length (EdgeOp.Downcast s))]
        simp [hdne]
  case Index idx =>
    cases h with
    | refl =>
        rw [newEdgesInto_split g
          (({ g with nodes := g.nodes ++ [GraphNode.new] } : Graph).add_node_edge
            src g.nodes.length EdgeOp.Index).1 _ d
          ((relNew_pushNew g).trans_rel (relNew_ane _ _ _ _)) (relNew_ane _ _ _ _)]
        rw [newEdgesInto_append1 g _ d _
          (ane_fst_edges ({ g with nodes := g.nodes ++ [GraphNode.new] } : Graph)
            src g.nodes.length EdgeOp.Index)]
        rw [newEdgesInto_append1 _ _ d _
          (ane_fst_edges (({ g with nodes := g.nodes ++ [GraphNode.new] } : Graph).add_node_edge
            src g.nodes.length EdgeOp.Index).1 idx g.nodes.length EdgeOp.Index)]
        simp [hdne]
  case Deref =>
    cases h with
    | refl =>
        rw [newEdgesInto_append1 g _ d _
          (ane_fst_edges ({ g with nodes := g.nodes ++ [GraphNode.new] } : Graph)
            src g.nodes.length EdgeOp.Deref)]
        simp [hdne]
  case Field idx =>
    cases h with
    | refl =>
        rw [newEdgesInto_append1 g _ d _
          (ane_fst_edges ({ g with nodes := g.nodes ++ [GraphNode.new] } : Graph)
            src g.nodes.length (EdgeOp.Field (fieldStr idx)))]
        simp [hdne]
  case ConstantIndex =>
    cases h with
    | refl =>
        rw [newEdgesInto_append1 g _ d _
          (ane_fst_edges ({ g with nodes := g.nodes ++ [GraphNode.new] } : Graph)
            src g.nodes.length EdgeOp.ConstIndex)]
        simp [hdne]
  case Subslice =>
    cases h with
    | refl =>
        rw [newEdgesInto_append1 g _ d _
          (ane_fst_edges ({ g with nodes := g.nodes ++ [GraphNode.new] } : Graph)
            src g.nodes.length EdgeOp.SubSlice)]
        simp [hdne]

theorem newEdgesInto_parse_go (elems : List PlaceElem) (g : Graph) (ret : Nat)
    (g' : Graph) (ret' : Nat) (d : Nat) (hd : d < g.nodes.length)
    (h : parse_place_go g ret elems = some (g', ret')) :
    newEdgesInto g g' d = 0 := by
  induction elems generalizing g ret with
  | nil =>
      simp only [parse_place_go, Option.some.injEq, Prod.mk.injEq] at h
      obtain ⟨h1, _⟩ := h
      rw [← h1]
      exact newEdgesInto_self g d
  | cons el rest ih =>
      simp only [parse_place_go] at h
      cases hs : parse_one_step g ret el with
      | none => rw [hs] at h; simp at h
      | some pr =>
          rw [hs] at h
          rw [newEdgesInto_split g pr.1 g' d
            (relNew_parse_one_step g ret el pr.1 pr.2 hs)
            (relNew_parse_place_go rest pr.1 pr.2 g' ret' h)]
          rw [newEdgesInto_parse_one_step g ret el pr.1 pr.2 d hd hs]
          rw [ih pr.1 pr.2
            (Nat.lt_of_lt_of_le hd
              (relNew_parse_one_step g ret el pr.1 pr.2 hs).nodes_le) h]

theorem newEdgesInto_parse_place (g : Graph) (p : Place) (g' : Graph)
    (ret : Nat) (d : Nat) (hd : d < g.nodes.length)
    (h : g.parse_place p = some (g', ret)) : newEdgesInto g g' d = 0 :=
  newEdgesInto_parse_go p.projection g p.lcl g' ret d hd h

theorem newEdgesInto_operand (g : Graph) (op : Operand) (dst : Nat)
    (g' : Graph) (hdst : dst < g.nodes.length)
    (h : g.add_operand op dst = some g') : newEdgesInto g g' dst = 1 := by
  cases op with
  | Copy p =>
      simp only [Graph.add_operand] at h
      cases hp : g.parse_place p with
      | none => rw [hp] at h; simp at h
      | some pr =>
          rw [hp] at h
          simp only [Option.some.injEq] at h
          rw [← h]
          rw [newEdgesInto_split g pr.1 _ dst (relNew_parse_place g p pr.1 pr.2 hp)
            (relNew_ane _ _ _ _)]
          rw [newEdgesInto_parse_place g p pr.1 pr.2 dst hdst hp,
            newEdgesInto_ane]
          simp
  | Move p =>
      simp only [Graph.add_operand] at h
      cases hp : g.parse_place p with
      | none => rw [hp] at h; simp at h
      | some pr =>
          rw [hp] at h
          simp only [Option.some.injEq] at h
          rw [← h]
          rw [newEdgesInto_split g pr.1 _ dst (relNew_parse_place g p pr.1 pr.2 hp)
            (relNew_ane _ _ _ _)]
          rw [newEdgesInto_parse_place g p pr.1 pr.2 dst hdst hp,
            newEdgesInto_ane]
          simp
  | Constant c =>
      simp only [Graph.add_operand, Option.some.injEq] at h
      rw [← h, newEdgesInto_ace]
      simp

theorem newEdgesInto_operands (args : List Operand) (g : Graph) (dst : Nat)
    (g' : Graph) (hdst : dst < g.nodes.length)
    (h : add_operands g args dst = some g') :
    newEdgesInto g g' dst = args.length := by
  induction args generalizing g with
  | nil =>
      simp only [add_operands, Option.some.injEq] at h
      rw [← h]
      exact newEdgesInto_self g dst
  | cons o rest ih =>
      simp only [add_operands] at h
      cases ho : g.add_operand o dst with
      | none => rw [ho] at h; simp at h
      | some g1 =>
          rw [ho] at h
          rw [newEdgesInto_split g g1 g' dst (relNew_add_operand g o dst g1 ho)
            (relNew_add_operands rest g1 dst g' h)]
          rw [newEdgesInto_operand g o dst g1 hdst ho]
          rw [ih g1
            (Nat.lt_of_lt_of_le hdst (relNew_add_operand g o dst g1 ho).nodes_le) h]
          simp [Nat.add_comm]

/-- C4 (amended): for a call terminator, a constant `FnDef`-valued target
resolves every argument operand into the destination slot (exactly one new
edge into the destination per argument) and tags it as a direct call with the
callee id; a moved runtime-value target (any moved place, projected or not)
resolves the callee operand first (one edge into the destination) and then
every argument (one edge each), tagging the destination as an indirect call;
a copy-shaped target aborts the translation; but a constant target that is
not a `FnDef` value proceeds silently, updating only the destination's span
and seq and adding no edges and no tag. -/
theorem c4_call_target_shapes :
    (∀ (g : Graph) (t : Terminator) (s : String) (did : Nat)
        (args : List Operand) (destP : Place) (g' : Graph),
      t.kind = TerminatorKind.Call
        (Operand.Constant (MirConst.Val s (TyKind.FnDef did))) args destP →
      destP.lcl < g.nodes.length →
      g.add_terminator_to_graph t = some g' →
      (g'.node destP.lcl).op = NodeOp.Call did ∧
      newEdgesInto g g' destP.lcl = args.length) ∧
    (∀ (g : Graph) (t : Terminator) (p : Place)
        (args : List Operand) (destP : Place) (g' : Graph),
      t.kind = TerminatorKind.Call (Operand.Move p) args destP →
      destP.lcl < g.nodes.length →
      g.add_terminator_to_graph t = some g' →
      (g'.node destP.lcl).op = NodeOp.CallOperand ∧
      (∃ g1, g.add_operand (Operand.Move p) destP.lcl = some g1 ∧
        newEdgesInto g g1 destP.lcl = 1 ∧
        newEdgesInto g1 g' destP.lcl = args.length ∧
        newEdgesInto g g' destP.lcl = args.length + 1)) ∧
    (∀ (g : Graph) (t : Terminator) (p : Place)
        (args : List Operand) (destP : Place),
      t.kind = TerminatorKind.Call (Operand.Copy p) args destP →
      g.add_terminator_to_graph t = none) ∧
    (∀ (g : Graph) (t : Terminator) (c : MirConst)
        (args : List Operand) (destP : Place),
      t.kind = TerminatorKind.Call (Operand.Constant c) args destP →
      isFnDefVal c = false →
      g.add_terminator_to_graph t =
        some ((g.set_node_span destP.lcl t.span).bump_seq destP.lcl)) := by
  refine ⟨?_, ?_, ?_, ?_⟩
  · intro g t s did args destP g' hk hlt hadd
    simp only [Graph.add_terminator_to_graph, hk] at hadd
    cases ha : add_operands g args destP.lcl with
    | none => rw [ha] at hadd; simp at hadd
    | some ga =>
        rw [ha] at hadd
        simp only [Option.map_some', Option.some.injEq] at hadd
        constructor
        · rw [← hadd, node_op_bump, node_op_set_span]
          have hlt' : destP.lcl < ga.nodes.length :=
            Nat.lt_of_lt_of_le hlt (relNew_add_operands args g destP.lcl ga ha).nodes_le
          exact node_set_op_self ga destP.lcl (NodeOp.Call did) hlt'
        · have hedges_eq : g'.edges = ga.edges := by
            rw [← hadd]
            rfl
          rw [newEdgesInto_eq_edges g ga g' destP.lcl hedges_eq]
          exact newEdgesInto_operands args g destP.lcl ga hlt ha
  · intro g t p args destP g' hk hlt hadd
    simp only [Graph.add_terminator_to_graph, hk] at hadd
    cases hf : g.add_operand (Operand.Move p) destP.lcl with
    | none => rw [hf] at hadd; simp at hadd
    | some g1 =>
        rw [hf] at hadd
        simp only [] at hadd
        cases ha : add_operands g1 args destP.lcl with
        | none => rw [ha] at hadd; simp at hadd
        | some ga =>
            rw [ha] at hadd
            simp only [Option.map_some', Option.some.injEq] at hadd
            have hd1 : destP.lcl < g1.nodes.length :=
              Nat.lt_of_lt_of_le hlt
                (relNew_add_operand g (Operand.Move p) destP.lcl g1 hf).nodes_le
            have hedges_eq : g'.edges = ga.edges := by
              rw [← hadd]
              rfl
            constructor
            · rw [← hadd, node_op_bump, node_op_set_span]
              have hlt' : destP.lcl < ga.nodes.length :=
                Nat.lt_of_lt_of_le hd1
                  (relNew_add_operands args g1 destP.lcl ga ha).nodes_le
              exact node_set_op_self ga destP.lcl NodeOp.CallOperand hlt'
            · refine ⟨g1, rfl,
                newEdgesInto_operand g (Operand.Move p) destP.lcl g1 hlt hf,
                ?_, ?_⟩
              · rw [newEdgesInto_eq_edges g1 ga g' destP.lcl hedges_eq]
                exact newEdgesInto_operands args g1 destP.lcl ga hd1 ha
              · rw [newEdgesInto_eq_edges g ga g' destP.lcl hedges_eq]
                rw [newEdgesInto_split g g1 ga destP.lcl
                  (relNew_add_operand g (Operand.Move p) destP.lcl g1 hf)
                  (relNew_add_operands args g1 destP.lcl ga ha)]
                rw [newEdgesInto_operand g (Operand.Move p) destP.lcl g1 hlt hf,
                  newEdgesInto_operands args g1 destP.lcl ga hd1 ha]
                omega
  · intro g t p args destP hk
    simp [Graph.add_terminator_to_graph, hk]
  · intro g t c args destP hk hc
    simp only [Graph.add_terminator_to_graph, hk]
    cases c with
    | Val s ty =>
        cases ty with
        | FnDef did => simp [isFnDefVal] at hc
        | Other => rfl
    | Other s => rfl

/-- Witness for C4 (amended): the direct call `_0 = f(copy _1)` tags slot 0
as a direct call to id 7 with exactly one argument edge into slot 0; the
indirect call `_0 = (*_1)(copy _2)` with a projected moved callee tags slot 0
as an indirect call with two edges into it (callee then argument); a
copy-shaped target aborts; a non-`FnDef` constant target proceeds with only
span/seq updates. -/
theorem c4_call_target_shapes_witness :
    ((exGterm.node 0).op = NodeOp.Call 7 ∧ newEdgesInto exG3 exGterm 0 = 1) ∧
    ((exGmove.node 0).op = NodeOp.CallOperand ∧
      newEdgesInto exG4 exGmove 0 = 2) ∧
    exG3.add_terminator_to_graph exTermCopy = none ∧
    exG3.add_terminator_to_graph exTermSilent =
      some ((exG3.set_node_span 0 exTermSilent.span).bump_seq 0) := by
  refine ⟨?_, ?_, ?_, ?_⟩
  · exact c4_call_target_shapes.1 exG3 exTermCall "f" 7
      [Operand.Copy { lcl := 1, projection := [] }]
      { lcl := 0, projection := [] } exGterm rfl (by decide) rfl
  · have h := c4_call_target_shapes.2.1 exG4 exTermMove
      { lcl := 1, projection := [PlaceElem.Deref] }
      [Operand.Copy { lcl := 2, projection := [] }]
      { lcl := 0, projection := [] } exGmove rfl (by decide) rfl
    obtain ⟨hop, _, _, _, _, htot⟩ := h
    exact ⟨hop, htot⟩
  · exact c4_call_target_shapes.2.2.1 exG3 exTermCopy
      { lcl := 1, projection := [] } [] { lcl := 0, projection := [] } rfl
  · exact c4_call_target_shapes.2.2.2 exG3 exTermSilent (MirConst.Other "c")
      [] { lcl := 0, projection := [] } rfl rfl

/-- The `traverse_all = false` edge loop halts with the first admitted edge
whose recursive call stops, no matter how many earlier edges were rejected by
the validator or returned `Continue`: if the loop runs through `pre` without
stopping and the next edge `e` is admitted and its recursion stops, the loop
's result is that stop, and the remaining edges are never explored. -/
theorem dfsEdges_stop_after_prefix {σ : Type} (g : Graph)
    (ev : Graph → Nat → DFSStatus) (recur : Nat → σ → Option (σ × DFSStatus)) :
    ∀ (pre : List Nat) (us : Bool) (e : Nat) (rest : List Nat) (s s1 s2 : σ),
      dfsEdges g ev false recur pre us s = some (s1, DFSStatus.Continue) →
      ev g e = DFSStatus.Continue →
      recur (if us then (g.edge e).src else (g.edge e).dst) s1 =
        some (s2, DFSStatus.Stop) →
      dfsEdges g ev false recur (pre ++ e :: rest) us s =
        some (s2, DFSStatus.Stop) := by
  intro pre
  induction pre with
  | nil =>
      intro us e rest s s1 s2 hpre hev hrec
      simp only [dfsEdges, Option.some.injEq, Prod.mk.injEq] at hpre
      obtain ⟨h1, _⟩ := hpre
      subst h1
      simp only [List.nil_append, dfsEdges, hev, hrec]
      rw [if_neg (by simp)]
  | cons p pre' ih =>
      intro us e rest s s1 s2 hpre hev hrec
      simp only [dfsEdges] at hpre
      simp only [List.cons_append, dfsEdges]
      cases hev2 : ev g p with
      | Stop =>
          simp only [hev2] at hpre ⊢
          exact ih us e rest s s1 s2 hpre hev hrec
      | Continue =>
          simp only [hev2] at hpre ⊢
          cases hr : recur (if us then (g.edge p).src else (g.edge p).dst) s with
          | none =>
              simp only [hr] at hpre
              exact Option.noConfusion hpre
          | some pr2 =>
              simp only [hr] at hpre ⊢
              cases pr2 with
              | mk sp rp =>
                  cases rp with
                  | Stop =>
                      simp at hpre
                  | Continue =>
                      simp only [] at hpre ⊢
                      exact ih us e rest sp s1 s2 hpre hev hrec

/-- C8: the depth-first search contract.  (1) If the node predicate stops at
the current node, none of its edges are explored and the search returns that
state immediately.  (2)(3) With `traverse_all = false`, the first recursive
call that stops through an admitted edge — after any number of earlier
validator-rejected or continuing edges — halts the entire search immediately
with that result (downside and upside).  (4) With `traverse_all = true` the
edge loop never early-exits: it equals the exhaustive walk over every
admitted edge.  (5) Consequently a `traverse_all = true` search from a
continuing node visits the full edge list exhaustively and reports
`Continue` regardless of branch outcomes. -/
theorem c8_dfs_contract :
    (∀ (σ : Type) (g : Graph) (dir : Direction)
        (no : Graph → σ → Nat → σ × DFSStatus) (ev : Graph → Nat → DFSStatus)
        (ta : Bool) (fuel now : Nat) (s s1 : σ),
      no g s now = (s1, DFSStatus.Stop) →
      g.dfs dir no ev ta (fuel + 1) now s = some (s1, DFSStatus.Stop)) ∧
    (∀ (σ : Type) (g : Graph)
        (no : Graph → σ → Nat → σ × DFSStatus) (ev : Graph → Nat → DFSStatus)
        (fuel now : Nat) (s s1 s1' s2 : σ) (pre : List Nat) (e : Nat)
        (rest : List Nat),
      no g s now = (s1, DFSStatus.Continue) →
      (g.node now).out_edges = pre ++ e :: rest →
      dfsEdges g ev false
        (fun l st => g.dfs Direction.Downside no ev false fuel l st)
        pre false s1 = some (s1', DFSStatus.Continue) →
      ev g e = DFSStatus.Continue →
      g.dfs Direction.Downside no ev false fuel ((g.edge e).dst) s1' =
        some (s2, DFSStatus.Stop) →
      g.dfs Direction.Downside no ev false (fuel + 1) now s =
        some (s2, DFSStatus.Stop)) ∧
    (∀ (σ : Type) (g : Graph)
        (no : Graph → σ → Nat → σ × DFSStatus) (ev : Graph → Nat → DFSStatus)
        (fuel now : Nat) (s s1 s1' s2 : σ) (pre : List Nat) (e : Nat)
        (rest : List Nat),
      no g s now = (s1, DFSStatus.Continue) →
      (g.node now).in_edges = pre ++ e :: rest →
      dfsEdges g ev false
        (fun l st => g.dfs Direction.Upside no ev false fuel l st)
        pre true s1 = some (s1', DFSStatus.Continue) →
      ev g e = DFSStatus.Continue →
      g.dfs Direction.Upside no ev false fuel ((g.edge e).src) s1' =
        some (s2, DFSStatus.Stop) →
      g.dfs Direction.Upside no ev false (fuel + 1) now s =
        some (s2, DFSStatus.Stop)) ∧
    (∀ (σ : Type) (g : Graph)
        (ev : Graph → Nat → DFSStatus) (recur : Nat → σ → Option (σ × DFSStatus))
        (l : List Nat) (us : Bool) (s : σ),
      dfsEdges g ev true recur l us s =
        (dfsEdgesAll g ev recur l us s).map (fun s' => (s', DFSStatus.Continue))) ∧
    (∀ (σ : Type) (g : Graph)
        (no : Graph → σ → Nat → σ × DFSStatus) (ev : Graph → Nat → DFSStatus)
        (fuel now : Nat) (s s1 : σ),
      no g s now = (s1, DFSStatus.Continue) →
      g.dfs Direction.Downside no ev true (fuel + 1) now s =
        (dfsEdgesAll g ev (fun l st => g.dfs Direction.Downside no ev true fuel l st)
          ((g.node now).out_edges) false s1).map
          (fun s' => (s', DFSStatus.Continue))) := by
  refine ⟨?_, ?_, ?_, ?_, ?_⟩
  · intro σ g dir no ev ta fuel now s s1 h
    simp [Graph.dfs, h]
  · intro σ g no ev fuel now s s1 s1' s2 pre e rest hno hedges hpre hev hrec
    simp only [Graph.dfs, hno, hedges]
    exact dfsEdges_stop_after_prefix g ev _ pre false e rest s1 s1' s2 hpre hev
      (by simpa using hrec)
  · intro σ g no ev fuel now s s1 s1' s2 pre e rest hno hedges hpre hev hrec
    simp only [Graph.dfs, hno, hedges]
    exact dfsEdges_stop_after_prefix g ev _ pre true e rest s1 s1' s2 hpre hev
      (by simpa using hrec)
  · intro σ g ev recur l us s
    exact dfsEdges_true_eq_all g ev recur l us s
  · intro σ g no ev fuel now s s1 hno
    simp only [Graph.dfs, hno]
    exact dfsEdges_true_eq_all g ev _ ((g.node now).out_edges) false s1

/-- Witness for C8: the node-predicate stop, a downside stop on the first
edge, an upside stop on the second in-edge after a continuing first in-edge
(the general prefix case), and the exhaustive walk, each at concrete
inputs. -/
theorem c8_dfs_contract_witness :
    exGq.dfs Direction.Downside (connect_node_operator 0)
      Graph.always_true_edge_validator false 3 0 false =
      some (true, DFSStatus.Stop) ∧
    exGq.dfs Direction.Downside (connect_node_operator 2)
      Graph.always_true_edge_validator false 2 1 false =
      some (true, DFSStatus.Stop) ∧
    exGidx.dfs Direction.Upside (connect_node_operator 2)
      Graph.always_true_edge_validator false 3 4 false =
      some (true, DFSStatus.Stop) ∧
    exGq.dfs Direction.Downside (connect_node_operator 5)
      Graph.always_true_edge_validator true 2 1 false =
      (dfsEdgesAll exGq Graph.always_true_edge_validator
        (fun l st => exGq.dfs Direction.Downside (connect_node_operator 5)
          Graph.always_true_edge_validator true 1 l st)
        ((exGq.node 1).out_edges) false false).map
        (fun s' => (s', DFSStatus.Continue)) := by
  refine ⟨?_, ?_, ?_, ?_⟩
  · exact c8_dfs_contract.1 Bool exGq Direction.Downside
      (connect_node_operator 0) Graph.always_true_edge_validator false 2 0
      false true rfl
  · exact c8_dfs_contract.2.1 Bool exGq (connect_node_operator 2)
      Graph.always_true_edge_validator 1 1 false false false true [] 0 []
      rfl rfl rfl rfl rfl
  · exact c8_dfs_contract.2.2.1 Bool exGidx (connect_node_operator 2)
      Graph.always_true_edge_validator 2 4 false false false true [0] 1 []
      rfl rfl rfl rfl rfl
  · exact c8_dfs_contract.2.2.2.2 Bool exGq (connect_node_operator 5)
      Graph.always_true_edge_validator 1 1 false false rfl
